import Mathlib

/-!
# libfork: virtual stack, result binding, task API and benchmarks

A shallow embedding of the parts of libfork that the specification's
testable properties talk about:

* the per-worker `virtual_stack` (bump allocation, LIFO release, the
  address mask of `from_address`, the one-slot failure channel);
* `promise_result<R, T>` of `libfork/core/result.hpp` (the `return_value`
  overloads that write a caller-owned return slot, and the specialisation
  for an ignored result);
* the task API of `libfork/core/task copy.hpp` (`tag`, `no_forked_rvalue`,
  `packet::invoke_bind`);
* the benchmark and test workloads: Fibonacci, n-queens, the unbalanced tree
  search and the parallel `for_each`.

Addresses and sizes are natural numbers (`std::uintptr_t`, `std::size_t`
without wrap-around: every address of a stack lies in `[base, base + C]`).
-/

namespace lf

/-! ## Virtual stack -/

/-- Modelled from the spec: the error kinds of section 7 that the stack can
raise; `libfork/stack.hpp` is absent, the test only sees a `std::exception`. -/
inductive stack_error where
  | stack_overflow
  deriving DecidableEq, Repr

/-- Modelled from the spec: the state of `virtual_stack<C>` (header
`libfork/stack.hpp` is absent): a contiguous buffer of capacity `cap` bytes
starting at `base`, the bump pointer `top`, and the optional pending
failure. The stack object is placed at `base`. -/
structure virtual_stack (ε : Type) where
  base : Nat
  cap : Nat
  top : Nat
  pending_failure : Option ε
  deriving DecidableEq, Repr

/-- Modelled from the spec: rounding of a request to the platform's maximum
scalar alignment `detail::k_new_align` (a constant of the absent header,
taken as the parameter `k_new_align`): the least multiple of the alignment
that is at least `n`. -/
def align (k_new_align n : Nat) : Nat :=
  (n + k_new_align - 1) / k_new_align * k_new_align

/-- Modelled from the spec: a freshly created stack (`make_unique()`):
`top == base` and no pending failure. -/
def make_unique {ε : Type} (base cap : Nat) : virtual_stack ε :=
  { base := base, cap := cap, top := base, pending_failure := none }

/-- Modelled from the spec: `make_unique(n)`, an array of `n` fresh stacks
laid out one after the other, each `cap` bytes wide. -/
def make_unique_array {ε : Type} (base cap n : Nat) : List (virtual_stack ε) :=
  (List.range n).map (fun i => make_unique (base + i * cap) cap)

/-- Modelled from the spec: `empty()`, true iff `top == base` and no pending
failure. -/
def empty {ε : Type} (s : virtual_stack ε) : Bool :=
  s.top == s.base && s.pending_failure.isNone

/-- Modelled from the spec: `allocate(n)`. It reserves `n` bytes aligned to
the platform's maximum scalar alignment: the address handed out is the
current `top`, and `top` advances by the request rounded up to the alignment,
so that the next address is aligned again (the test "Alignment Checks" asks
two consecutive 10-byte allocations to be aligned and to be released in LIFO
order). It fails with the overflow error when the reservation does not fit
below `base + C`, leaving the stack as it was; on a well-formed stack that is
the spec's `top + n > base + C` (`allocate_fits_iff`). -/
def allocate {ε : Type} (k_new_align : Nat) (s : virtual_stack ε) (n : Nat) :
    Except stack_error (Nat × virtual_stack ε) :=
  if s.top + align k_new_align n > s.base + s.cap then
    .error .stack_overflow
  else
    .ok (s.top, { s with top := s.top + align k_new_align n })

/-- Modelled from the spec: the precondition of `deallocate(addr, n)` in the
spec's words, `addr + n == top`. -/
def deallocate_pre {ε : Type} (s : virtual_stack ε) (addr n : Nat) : Bool :=
  addr + n == s.top

/-- Modelled from the spec: `deallocate(addr, n)` resets `top` to `addr`
(the precondition is an assertion, it does not change what is stored). -/
def deallocate {ε : Type} (s : virtual_stack ε) (addr _n : Nat) : virtual_stack ε :=
  { s with top := addr }

/-- Modelled from the spec: `record_failure(e)` (`unhandled_exception()` in
the test): the one-slot failure channel keeps a failure that is already
pending ("one survives, others are dropped") and stores `e` otherwise. -/
def record_failure {ε : Type} (s : virtual_stack ε) (e : ε) : virtual_stack ε :=
  match s.pending_failure with
  | some _ => s
  | none => { s with pending_failure := some e }

/-- Modelled from the spec: `take_failure() → option<error>`
(`rethrow_if_unhandled()` in the test): surfaces the pending failure, if
any, and clears the slot. -/
def take_failure {ε : Type} (s : virtual_stack ε) : Option ε × virtual_stack ε :=
  (s.pending_failure, { s with pending_failure := none })

/-- Modelled from the spec: `from_address(p)`, the address of the owning
stack recovered from a pointer by masking with the capacity,
`p & ~(C - 1)`. -/
def from_address (C p : Nat) : Nat :=
  p - (p &&& (C - 1))

/-- Modelled from the spec: the stacks of a pool, found by the address they
are placed at; a handle is such an address. -/
abbrev arena (ε : Type) := Nat → Option (virtual_stack ε)

/-- Modelled from the spec: `handle->empty()`, the emptiness of the stack a
handle designates. -/
def handle_empty {ε : Type} (m : arena ε) (h : Nat) : Option Bool :=
  (m h).map empty

/-- Modelled from the spec: the arena after one stack has been replaced. -/
def arena_set {ε : Type} (m : arena ε) (h : Nat) (s : virtual_stack ε) : arena ε :=
  fun a => if a = h then some s else m a

/-- Modelled from the spec: `handle->deallocate(addr, n)`, a deallocation
on the stack a handle designates. -/
def handle_deallocate {ε : Type} (m : arena ε) (h addr n : Nat) : arena ε :=
  match m h with
  | some s => arena_set m h (deallocate s addr n)
  | none => m

/-- Well-formed stacks: the alignment is positive and divides the capacity,
the base and the bump pointer, and `base ≤ top ≤ base + C`. Every stack
reached from a fresh one placed at an aligned address is of this kind. -/
def wf {ε : Type} (k_new_align : Nat) (s : virtual_stack ε) : Prop :=
  0 < k_new_align ∧ k_new_align ∣ s.cap ∧ k_new_align ∣ s.base ∧ k_new_align ∣ s.top ∧
    s.base ≤ s.top ∧ s.top ≤ s.base + s.cap

instance {ε : Type} (k : Nat) (s : virtual_stack ε) : Decidable (wf k s) := by
  unfold wf; infer_instance

/-- One call on a stack: an allocation of `n` bytes, or the deallocation
that matches the most recent live allocation. -/
inductive call where
  | allocate (n : Nat)
  | deallocate
  deriving DecidableEq, Repr

/-- A stack together with the bookkeeping of a client that follows the LIFO
discipline: the live allocations `(addr, n)`, most recent first, and every
address that `allocate` has returned so far. -/
structure client (ε : Type) where
  stack : virtual_stack ε
  live : List (Nat × Nat)
  returned : List Nat

/-- A client that has just created its stack. -/
def client.fresh {ε : Type} (s : virtual_stack ε) : client ε :=
  { stack := s, live := [], returned := [] }

/-- One call of a LIFO client. A failed allocation throws and leaves
everything as it was; a deallocation releases the most recent live
allocation with its own address and size, and is not possible when nothing
is live. -/
def client.step {ε : Type} (k_new_align : Nat) (c : client ε) : call → Option (client ε)
  | .allocate n =>
    match allocate k_new_align c.stack n with
    | .ok (addr, s) => some { stack := s, live := (addr, n) :: c.live, returned := addr :: c.returned }
    | .error _ => some c
  | .deallocate =>
    match c.live with
    | (addr, n) :: rest => some { c with stack := deallocate c.stack addr n, live := rest }
    | [] => none

/-- A sequence of calls of a LIFO client, `none` when the sequence is not
LIFO-valid. -/
def client.run {ε : Type} (k_new_align : Nat) (c : client ε) : List call → Option (client ε)
  | [] => some c
  | x :: xs =>
    match client.step k_new_align c x with
    | some c1 => client.run k_new_align c1 xs
    | none => none

/-- The bytes requested by the live allocations. -/
def live_requested (live : List (Nat × Nat)) : Nat :=
  (live.map (fun a => a.2)).sum

/-- The bytes reserved for the live allocations: each request rounded up to
the alignment. -/
def live_reserved (k_new_align : Nat) (live : List (Nat × Nat)) : Nat :=
  (live.map (fun a => align k_new_align a.2)).sum

/-- The live allocations of a LIFO client tile the stack: the most recent
one ends at `top`, each one starts where the one before it ends, and the
oldest starts at `base`. -/
def tiled (k base : Nat) : List (Nat × Nat) → Nat → Prop
  | [], top => top = base
  | a :: rest, top => top = a.1 + align k a.2 ∧ tiled k base rest a.1

/-- What a LIFO client keeps true of a stack created at `base` with capacity
`cap` and pending failure `pf`. -/
def client.inv {ε : Type} (k base cap : Nat) (pf : Option ε) (c : client ε) : Prop :=
  c.stack.base = base ∧ c.stack.cap = cap ∧ c.stack.pending_failure = pf ∧
    tiled k base c.live c.stack.top ∧ c.stack.top ≤ base + cap ∧
    (k ∣ base → ∀ a ∈ c.returned, k ∣ a)

/-- Sizes of the live allocations of a client are positive. -/
def client.live_pos {ε : Type} (c : client ε) : Prop := ∀ a ∈ c.live, 0 < a.2

/-! ## Result binding (`libfork/core/result.hpp`) -/

/-- An assignment expression `lhs = rhs` with an operand of type `X`, as
overload resolution settles it: the selected `operator=` of `R` either takes
the operand itself (`direct`), or takes a parameter of another type `P`, to
which the operand is first converted implicitly, so that a temporary `P` is
constructed (`converting`). -/
inductive assignment (R X P : Type) where
  | direct (assign : R → X → R)
  | converting (convert : X → P) (assign : R → P → R)

/-- The value the assignment `lhs = rhs` leaves in the assigned object. -/
def assignment.assigned {R X P : Type} : assignment R X P → R → X → R
  | .direct assign, lhs, rhs => assign lhs rhs
  | .converting convert assign, lhs, rhs => assign lhs (convert rhs)

/-- The temporaries that the implicit conversion of the operand of
`lhs = rhs` constructs. -/
def assignment.converted {R X P : Type} : assignment R X P → X → List P
  | .direct _, _ => []
  | .converting convert _, rhs => [convert rhs]

/-- The concept `assignable<R &, U>` as seen by `if constexpr`: `none` when
the expression `lhs = std::forward<U>(rhs)` is ill-formed or not of type
`R &`, and otherwise the assignment that the expression stands for. -/
abbrev assignable (R U P : Type) := Option (assignment R U P)

/-- The class `promise_result<R, T>` for a non-void return address: its only
member is the return address `m_ret_address`. -/
structure promise_result (R : Type) where
  m_ret_address : Nat
  deriving DecidableEq, Repr

/-- The accessor `address()`. -/
def promise_result.address {R : Type} (self : promise_result R) : Nat :=
  self.m_ret_address

/-- The store `*p = v` in a memory of objects of one type. -/
def write {α : Type} (mem : Nat → α) (p : Nat) (v : α) : Nat → α :=
  fun a => if a = p then v else mem a

/-- What a call of a `return_value` overload leaves behind: the promise
(the methods are `const`), the memory of return slots, and the temporaries
the call has constructed: on the left a temporary `T(value)` that the
overload constructs itself, on the right a temporary of the implicit
conversion in an assignment. -/
structure written (R T P : Type) where
  self : promise_result R
  slots : Nat → R
  temporaries : List (T ⊕ P)

/-- The statement `*address() = rhs` of a `return_value` overload: the
slot at `address()` is assigned, and the temporaries of the assignment are
added to `temporaries`. -/
def promise_result.assign_address {R T X P : Type} (self : promise_result R)
    (slots : Nat → R) (a : assignment R X P) (rhs : X) (temporaries : List (T ⊕ P)) :
    written R T P :=
  { self := self
    slots := write slots self.address (a.assigned (slots self.address) rhs)
    temporaries := temporaries ++ (a.converted rhs).map .inr }

/-- The overload `return_value(T const &value)` (for a non-reference `T`):
`*address() = value` when `assignable<R &, T const &>`, and
`*address() = T(value)` otherwise. `copy_T` is the copy constructor of `T`
(`std::constructible_from<T, T const &>`) and `assign_R_T` the assignment of
the struct constraint `assignable<R &, T>`. -/
def promise_result.return_value_const {R T P : Type} (assignable_R_T_const : assignable R T P)
    (copy_T : T → T) (assign_R_T : assignment R T P) (self : promise_result R)
    (slots : Nat → R) (value : T) : written R T P :=
  match assignable_R_T_const with
  | some assign => self.assign_address slots assign value []
  | none => self.assign_address slots assign_R_T (copy_T value) [.inl (copy_T value)]

/-- The overload `return_value(T &&value)` with the produced object passed
by value: `*address() = std::move(value)` when `T &&` is an rvalue
reference, `*address() = value` otherwise; neither constructs a `T`.
`assign_R_T` is the assignment of the struct constraint `assignable<R &, T>`
and `assign_lvalue` the assignment from an lvalue. -/
def promise_result.return_value_rvalue {R T P : Type} (is_rvalue_reference : Bool)
    (assign_R_T : assignment R T P) (assign_lvalue : assignment R T P)
    (self : promise_result R) (slots : Nat → R) (value : T) : written R T P :=
  if is_rvalue_reference then
    self.assign_address slots assign_R_T value []
  else
    self.assign_address slots assign_lvalue value []

/-- The overload `template <typename U> return_value(U &&value)`:
`*address() = std::forward<U>(value)` when `assignable<R &, U>`, and
`*address() = T(std::forward<U>(value))` otherwise. `construct_T_U` is the
constructor of the requires clause `std::constructible_from<T, U>`. -/
def promise_result.return_value_forward {R T U P : Type} (assignable_R_U : assignable R U P)
    (construct_T_U : U → T) (assign_R_T : assignment R T P) (self : promise_result R)
    (slots : Nat → R) (value : U) : written R T P :=
  match assignable_R_U with
  | some assign => self.assign_address slots assign value []
  | none =>
    self.assign_address slots assign_R_T (construct_T_U value) [.inl (construct_T_U value)]

/-- The overload `return_value(T &&value)` for a reference type `T` (`V &`
or `V &&`), with the referent in memory: `value` is the address of the
referent in a memory of objects, in which the return slot lives too.
`*address() = std::move(value)` when `T &&` is an rvalue reference (the
assignment may leave the referent in a moved-from state), and
`*address() = value` otherwise. -/
def promise_result.return_value_reference {O : Type} (is_rvalue_reference : Bool)
    (assign_lvalue : O → O → O) (assign_move : O → O → O × O) (self : promise_result O)
    (mem : Nat → O) (value : Nat) : Nat → O :=
  if is_rvalue_reference then
    write (write mem value (assign_move (mem self.address) (mem value)).2) self.address
      (assign_move (mem self.address) (mem value)).1
  else
    write mem self.address (assign_lvalue (mem self.address) (mem value))

/-- What the types `R`, `T` and `Args...` say to the `if constexpr` tests of
the lambda `emplace`: `emplace` is the member `ret->emplace(args...)` when
the requires-expression holds; `move_assign` the move assignment of `R` when
`std::is_move_assignable_v<R>`; `construct_R` the constructor of
`std::constructible_from<R, Args...>` when it holds; `construct_T` the
constructor of the requires clause `std::constructible_from<T, Args...>`;
`assign_R_T` the assignment of the struct constraint `assignable<R &, T>`. -/
structure in_place_traits (R T Args : Type) where
  emplace : Option (R → Args → R)
  move_assign : Option (R → R → R)
  construct_R : Option (Args → R)
  construct_T : Args → T
  assign_R_T : R → T → R

/-- The lambda `emplace` of `promise_result<R, T>`, applied to a slot `ret`
and the forwarded arguments: `(*ret).emplace(args...)` when the slot exposes
it; else `(*ret) = R(args...)` when `R` is move assignable and constructible
from the arguments; else `(*ret) = T(args...)`. -/
def promise_result.emplace {R T Args : Type} (tr : in_place_traits R T Args) (ret : Nat)
    (slots : Nat → R) (args : Args) : (Nat → R) × List (R ⊕ T) :=
  match tr.emplace with
  | some member => (write slots ret (member (slots ret) args), [])
  | none =>
    match tr.move_assign, tr.construct_R with
    | some assign, some construct =>
      (write slots ret (assign (slots ret) (construct args)), [.inl (construct args)])
    | _, _ =>
      (write slots ret (tr.assign_R_T (slots ret) (tr.construct_T args)), [.inr (tr.construct_T args)])

/-- The conversion of an `int` to `unsigned char`. -/
def to_unsigned_char (n : Int) : Nat := (n % 256).toNat

/-- The types `R = int`, `T = unsigned char` and `Args... = int`: an `int`
has no member `emplace`, is move assignable and constructible from an
`int`. -/
def int_slot_unsigned_char_value : in_place_traits Int Nat Int :=
  { emplace := none
    move_assign := some (fun _ r => r)
    construct_R := some (fun a => a)
    construct_T := to_unsigned_char
    assign_R_T := fun _ t => (t : Int) }

/-- The types `R = std::optional<int>`, `T = int` and `Args... = int`: the
slot exposes `emplace`. -/
def optional_slot_int_value : in_place_traits (Option Int) Int Int :=
  { emplace := some (fun _ a => some a)
    move_assign := some (fun _ r => r)
    construct_R := some (fun a => some a)
    construct_T := fun a => a
    assign_R_T := fun _ t => some t }

/-- A value type `T` with the converting constructor `T(int)`. -/
structure boxed_value where
  value : Int
  deriving DecidableEq, Repr

/-- A slot type `R` whose only assignment operator is `R &operator=(T)` for
`T = boxed_value`. -/
structure boxed_slot where
  held : Int
  deriving DecidableEq, Repr

/-- The assignment `lhs = rhs` of an `int` to a `boxed_slot`: well-formed,
so `assignable<R &, int>` holds, through the implicit conversion of the
`int` to a `boxed_value`. -/
def boxed_slot_from_int : assignment boxed_slot Int boxed_value :=
  .converting (fun n => ⟨n⟩) (fun _ t => ⟨t.value⟩)

/-- The assignment `lhs = rhs` of a `boxed_value` to a `boxed_slot`. -/
def boxed_slot_from_value : assignment boxed_slot boxed_value boxed_value :=
  .direct (fun _ t => ⟨t.value⟩)

/-- The memory of the test `reference_int`: the global `int x = 23` at
address 100, every other `int` (the return slot too) zero. -/
def memory_with_x : Nat → Int :=
  fun a => if a = 100 then 23 else 0

/-! ## Task API (`libfork/core/task copy.hpp`) and the void specialisation of `promise_result` -/

/-- The enumeration `enum class tag`: `root`, `call`, `fork`. -/
inductive tag where
  | root
  | call
  | fork
  deriving DecidableEq, Repr

/-- The enumerator of `tag` that the qualified name `tag::name` denotes,
`none` when the enumeration declares no such enumerator. -/
def tag.of_name : String → Option tag
  | "root" => some .root
  | "call" => some .call
  | "fork" => some .fork
  | _ => none

/-- The tag values that `task copy.hpp` names, by the place that names them:
the concept `no_forked_rvalue`, the concept `result_matches`, the assertion
of `invoke_bind`, the return types of `async_fn::operator()` and
`async_mem_fn::operator()`, the `static_assert` after `first_arg_base`, and
the `static_assert` of `first_arg_t` for member functions. -/
def named_tags : List (String × String) :=
  [("no_forked_rvalue", "fork"), ("result_matches", "root"), ("result_matches", "invoke"),
    ("invoke_bind", "root"), ("async_fn::operator()", "invoke"),
    ("async_mem_fn::operator()", "invoke"), ("first_arg_base", "invoke"),
    ("first_arg_t", "fork")]

/-- The tag of the packets that `async_fn::operator()` and
`async_mem_fn::operator()` return,
`packet<first_arg_t<void, tag::invoke, ...>, Args...>`. -/
def async_fn_packet_tag : Option tag := tag.of_name "invoke"

/-- The kind of a type for `std::is_reference_v`: an object type, an lvalue
reference `U &` or an rvalue reference `U &&`. -/
inductive type_kind where
  | object
  | lvalue_reference
  | rvalue_reference
  deriving DecidableEq, Repr

/-- The trait `std::is_reference_v<T>`. -/
def is_reference_v : type_kind → Bool
  | .object => false
  | .lvalue_reference => true
  | .rvalue_reference => true

/-- The type `T &&` by reference collapsing. -/
def add_rvalue_reference : type_kind → type_kind
  | .object => .rvalue_reference
  | .lvalue_reference => .lvalue_reference
  | .rvalue_reference => .rvalue_reference

/-- The type `T` that template argument deduction gives a forwarding
parameter `T &&`: `U &` for an lvalue argument (`true`), `U` for an rvalue
argument. -/
def deduced (argument_is_lvalue : Bool) : type_kind :=
  if argument_is_lvalue then .lvalue_reference else .object

/-- The concept `no_forked_rvalue<T, Self>`:
`Self::tag_value != tag::fork || std::is_reference_v<T>`. -/
def no_forked_rvalue (T : type_kind) (tag_value : tag) : Bool :=
  tag_value != tag.fork || is_reference_v T

/-- The condition of the `static_assert` of `first_arg_t` for member
functions: `Tag != tag::fork || std::is_reference_v<Self>`. -/
def first_arg_t_assert (Tag : tag) (Self : type_kind) : Bool :=
  Tag != tag.fork || is_reference_v Self

/-- Modelled from the spec: the promise of a frame as `invoke_bind` sees it
(`promise_base` of the absent `libfork/core/core.hpp`): the parent link and
the return address, each absent until it is set. -/
structure promise_base where
  parent : Option Nat
  ret_address : Option Nat
  deriving DecidableEq, Repr

/-- Modelled from the spec: `set_parent` of the absent `core.hpp` stores the
parent handle (a null handle is an absent parent). -/
def promise_base.set_parent (self : promise_base) (parent : Option Nat) : promise_base :=
  { self with parent := parent }

/-- Modelled from the spec: `set_ret_address` of the absent `core.hpp`
stores the address of the return slot. -/
def promise_base.set_ret_address (self : promise_base) (ret : Nat) : promise_base :=
  { self with ret_address := some ret }

/-- The struct `packet<Head, Tail...>`: `ret` is the reference to the
caller-supplied slot, and `none` (the member is a `detail::empty`) exactly
when the return-address type is `void`; `tag_value` is `Head::tag_value`;
`child` is the promise of the coroutine that invoking the underlying
function with the context and the arguments creates. -/
structure packet where
  ret : Option Nat
  tag_value : tag
  child : promise_base
  deriving DecidableEq, Repr

/-- The method `packet::invoke_bind(parent)`: after the assertion
`parent || Head::tag_value == tag::root` (`none` when it fails), the child is
created, its parent is set, its return address is set when the
return-address type is not `void`, and the child is returned. -/
def packet.invoke_bind (self : packet) (parent : Option Nat) : Option promise_base :=
  if parent.isSome || self.tag_value == tag.root then
    match self.ret with
    | some ret => some ((self.child.set_parent parent).set_ret_address ret)
    | none => some (self.child.set_parent parent)
  else
    none

/-- The specialisation of `promise_result<R, T>` for `R` `void` or
`detail::ignore_t`: it has no data member. -/
structure promise_result_void where
  deriving DecidableEq, Repr

/-- The member `return_void()` of the void specialisation, with the empty
body `{}`: the promise and the memory of return slots stay as they are. -/
def promise_result_void.return_void {α : Type} (self : promise_result_void) (slots : Nat → α) :
    promise_result_void × (Nat → α) :=
  (self, slots)

/-- The operand of a `co_return` statement: none (`co_return;`) or an
expression of the value type (`co_return v;`). -/
inductive co_return_operand (T : Type) where
  | void
  | value (v : T)

/-- A `co_return` statement in a coroutine whose promise is the void
specialisation: `co_return;` calls `return_void()`; `co_return v;` calls
`return_value(v)`, a member that the specialisation does not declare, so the
statement is ill-formed (`none`). -/
def promise_result_void.co_return {T α : Type} (self : promise_result_void) (slots : Nat → α) :
    co_return_operand T → Option (promise_result_void × (Nat → α))
  | .void => some (self.return_void slots)
  | .value _ => none

/-! ## Fibonacci benchmarks (`benchmark/libfork/fib.cpp`, `benchmark/tmc/fib.cpp`) -/

/-- The largest value of a 32-bit signed `int`. -/
def INT_MAX : Int := 2 ^ 31 - 1

/-- The least value of a 32-bit signed `int`. -/
def INT_MIN : Int := -(2 ^ 31)

/-- The sum of two `int`s: the value when it fits, `none` on signed overflow
(undefined behaviour). -/
def add_int (a b : Int) : Option Int :=
  if INT_MIN ≤ a + b ∧ a + b ≤ INT_MAX then some (a + b) else none

/-- A schedule of the pool: for the task reached by a path of forks (`true`)
and calls (`false`), whether its forked child completes before its called
child. Worker count and pool variant act on a run only through it. -/
abbrev schedule := List Bool → Bool

/-- The task `fib` of `benchmark/libfork/fib.cpp` with `int` arithmetic:
`n` when `n < 2`; otherwise `fib(n - 1)` is forked, `fib(n - 2)` is called,
and after the join the result is `*a + b`. The two children complete in the
order the schedule gives. -/
def fib (sched : schedule) (path : List Bool) (n : Int) : Option Int :=
  if n < 2 then
    some n
  else if sched path then
    (fib sched (true :: path) (n - 1)).bind fun a =>
      (fib sched (false :: path) (n - 2)).bind fun b => add_int a b
  else
    (fib sched (false :: path) (n - 2)).bind fun b =>
      (fib sched (true :: path) (n - 1)).bind fun a => add_int a b
termination_by n.toNat
decreasing_by all_goals (simp_wf; omega)

/-- The task `fib` of `benchmark/tmc/fib.cpp` with `size_t` arithmetic
(64 bits, wrapping): `n` when `n < 2`, otherwise `x + y` for the spawned
`fib(n - 1)` and the awaited `fib(n - 2)`. -/
def tmc.fib (n : Nat) : Nat :=
  if n < 2 then n else (tmc.fib (n - 1) + tmc.fib (n - 2)) % 2 ^ 64
termination_by n
decreasing_by all_goals (simp_wf; omega)

/-- The narrowing of a `size_t` to `int` in `int answer = ...get()` of
`run`: the value modulo `2 ^ 32`, read as two's complement. -/
def to_int (x : Nat) : Int :=
  ((x : Int) + 2 ^ 31) % 2 ^ 32 - 2 ^ 31

/-- The inputs of the benchmark `main`: `run("..-fib-N", N)`. -/
def fib_benchmark_inputs : List Nat := [30, 35, 40, 42]

/-! ## Parallel `for_each` (`test/source/algorithm/for_each.cpp`) -/

/-- Modelled from the spec: `lf::for_each(v, grain, fun, proj)` of the absent
`libfork/algorithm/for_each.hpp`. `f` is the effect on an element of invoking
the callable (plain or async) on the projected element. A range no longer
than the grain is a single sequential chunk; a longer range is split in two,
the first half is forked, the second is called, and the two are joined. The
recursion runs on fuel: `none` when the fuel is used up. -/
def for_each {α : Type} (grain : Nat) (f : α → α) : Nat → List α → Option (List α)
  | 0, _ => none
  | fuel + 1, v =>
    if v.length ≤ grain then
      some (v.map f)
    else
      (for_each grain f fuel (v.take (v.length / 2))).bind fun head =>
        (for_each grain f fuel (v.drop (v.length / 2))).map fun tail => head ++ tail

/-- Modelled from the spec: `lf::sync_wait(pool, lf::for_each, v, grain, fun)`
runs `for_each` on the whole sequence to completion. -/
def sync_wait_for_each {α : Type} (grain : Nat) (f : α → α) (v : List α) : Option (List α) :=
  for_each grain f (v.length + 1) v

/-- Successive applications of `for_each` with the given grain sizes. -/
def for_each_all {α : Type} (f : α → α) : List Nat → List α → Option (List α)
  | [], v => some v
  | grain :: grains, v => (sync_wait_for_each grain f v).bind (for_each_all f grains)

/-- The sequence of the test: `v[i] = i` for `i < 10000`. -/
def test_sequence : List Int := (List.range 10000).map (fun (i : Nat) => (i : Int))

/-- The grain sizes of the test, in order: for the plain callable 1, 100,
300, 20000, then with a projection 1 and 300; the same for the async
callable. -/
def test_grains : List Nat := [1, 100, 300, 20000, 1, 300, 1, 100, 300, 20000, 1, 300]

/-! ## Unbalanced tree search benchmark (`bench/source/uts/tmc.cpp`) -/

/-- The struct `Node` of the absent `external/uts.h`, with the fields that
`tmc.cpp` writes: `type`, `height` and the state of the random number
generator (`state.state`). -/
structure Node (S : Type) where
  type : Int
  height : Int
  state : S

/-- The struct `result` of the absent `config.hpp`, constructed as
`result(maxdepth, size, leaves)`; its counters are taken without a bound. -/
structure result where
  maxdepth : Int
  size : Int
  leaves : Int
  deriving DecidableEq, Repr

/-- The parts of the absent `external/uts.h` and of the tree set up by
`setup_tree` that `tmc.cpp` uses: `uts_numChildren`, `uts_childType`,
`rng_spawn(parent, child, i)` (the state it writes to `child`), the node
`root` that `uts_initRoot(&node, type)` writes, and the global
`computeGranularity`. -/
structure uts_tree (S : Type) where
  uts_numChildren : Node S → Int
  uts_childType : Node S → Int
  rng_spawn : S → Int → S
  root : Node S
  computeGranularity : Int

/-- The loop `for (j = 0; j < computeGranularity; j++) rng_spawn(parent,
child, i)` on a child state that holds `init` before the loop. -/
def spawn_state {S : Type} (t : uts_tree S) (parentState init : S) (i : Int) : S :=
  (List.range t.computeGranularity.toNat).foldl (fun _ _ => t.rng_spawn parentState i) init

/-- All the values of a list of optional values, `none` when one is missing. -/
def all_some {α : Type} : List (Option α) → Option (List α)
  | [] => some []
  | none :: _ => none
  | some a :: xs => (all_some xs).map (fun as => a :: as)

/-- The awaited `spawn_many(iter_adapter(0, f), n)`: the results of the tasks
`f(0), ..., f(n - 1)`, in this order. -/
def spawn_many {α : Type} (f : Int → Option α) (n : Int) : Option (List α) :=
  all_some ((List.range n.toNat).map (fun (i : Nat) => f (i : Int)))

/-- One turn of the loop over the results of the children:
`r.maxdepth = max(r.maxdepth, res.maxdepth); r.size += res.size;
r.leaves += res.leaves`. -/
def accumulate (r res : result) : result :=
  { maxdepth := max r.maxdepth res.maxdepth, size := r.size + res.size,
    leaves := r.leaves + res.leaves }

/-- The node that a task `uts<false>(parentState, depth, myIdx, myType)`
builds for itself: `self.height = depth`, `self.type = myType`, and the state
spawned from the state of the parent (`indeterminate` is what the local
`Node self` holds before the loop). -/
def uts_self {S : Type} (t : uts_tree S) (indeterminate : S) (parentState : S)
    (depth myIdx myType : Int) : Node S :=
  { height := depth, type := myType, state := spawn_state t parentState indeterminate myIdx }

/-- The node `cs[i]` that `uts_alloc` builds for the child `i` of `parent`
(`zero` is the state of a value-initialised `Node`). -/
def alloc_child {S : Type} (t : uts_tree S) (zero : S) (parent : Node S) (i : Int) : Node S :=
  { type := t.uts_childType parent, height := parent.height + 1,
    state := spawn_state t parent.state zero i }

/-- The task `uts<IsRoot>(parentState, depth, myIdx, myType)`. A root takes
its node from `uts_initRoot`; another task builds its node from its
arguments (`indeterminate` is what the local `Node self` holds before the
loop). A node with children awaits `uts<false>(state, depth + 1, i,
child_type)` for every child and accumulates the results into
`result(depth, 1, 0)`; a node without children sets `leaves = 1`. The
recursion runs on fuel: `none` when the fuel is used up. -/
def uts {S : Type} (t : uts_tree S) (indeterminate : S) :
    Nat → Bool → S → Int → Int → Int → Option result
  | 0, _, _, _, _, _ => none
  | fuel + 1, IsRoot, parentState, depth, myIdx, myType =>
    let self : Node S :=
      if IsRoot then t.root else uts_self t indeterminate parentState depth myIdx myType
    let r : result := { maxdepth := depth, size := 1, leaves := 0 }
    let num_children := t.uts_numChildren self
    let child_type := t.uts_childType self
    if num_children > 0 then
      (spawn_many (fun i => uts t indeterminate fuel false self.state (depth + 1) i child_type)
        num_children).map (fun results => results.foldl accumulate r)
    else
      some { r with leaves := 1 }

/-- The task `uts_alloc(depth, parent)`: a node with children builds the
vector `cs` of its children (`zero` is the state of a value-initialised
`Node`), awaits `uts_alloc(depth + 1, &cs[i])` for every child and
accumulates the results into `result(depth, 1, 0)`; a node without children
sets `leaves = 1`. -/
def uts_alloc {S : Type} (t : uts_tree S) (zero : S) : Nat → Int → Node S → Option result
  | 0, _, _ => none
  | fuel + 1, depth, parent =>
    let r : result := { maxdepth := depth, size := 1, leaves := 0 }
    let num_children := t.uts_numChildren parent
    if num_children > 0 then
      let cs : Int → Node S := alloc_child t zero parent
      (spawn_many (fun i => uts_alloc t zero fuel (depth + 1) (cs i)) num_children).map
        (fun results => results.foldl accumulate r)
    else
      some { r with leaves := 1 }

/-- The node of the child `i` of a node at depth `depth`, as the task
`uts<false>(parent.state, depth + 1, i, uts_childType(parent))` builds it. -/
def uts_child {S : Type} (t : uts_tree S) (init : S) (parent : Node S) (depth : Int) (i : Int) :
    Node S :=
  uts_self t init parent.state (depth + 1) i (t.uts_childType parent)

/-- The nodes of the tree that `uts` walks below a node at a depth, each
with its depth: the node itself, then the nodes below each of its
`uts_numChildren` children. `none` when the tree is deeper than the fuel. -/
def uts_nodes {S : Type} (t : uts_tree S) (init : S) :
    Nat → Node S → Int → Option (List (Node S × Int))
  | 0, _, _ => none
  | fuel + 1, node, depth =>
    (all_some ((List.range (t.uts_numChildren node).toNat).map
      (fun (i : Nat) => uts_nodes t init fuel (uts_child t init node depth (i : Int))
        (depth + 1)))).map
      (fun below => (node, depth) :: below.flatten)

/-- The statistics of a tree given by its nodes, the root at depth `depth`
first: the greatest depth of a node, the number of nodes, and the number of
nodes with no children. -/
def tree_result {S : Type} (t : uts_tree S) (depth : Int) (nodes : List (Node S × Int)) : result :=
  { maxdepth := (nodes.map (fun x => x.2)).foldl max depth,
    size := nodes.length,
    leaves := (nodes.filter (fun x => decide (t.uts_numChildren x.1 ≤ 0))).length }

/-- A tree for tests: the root has 2 children, which have none. -/
def small_tree : uts_tree Nat :=
  { uts_numChildren := fun n => if n.height < 1 then 2 else 0
    uts_childType := fun _ => 0
    rng_spawn := fun s i => 2 * s + i.toNat + 1
    root := { type := 0, height := 0, state := 0 }
    computeGranularity := 1 }

/-! ## N-queens benchmark (`bench/source/nqueens/tmc.cpp`) -/

/-- The largest value of `char`: 127 where `char` is signed, 255 where it is
unsigned (8 bits either way). -/
def CHAR_MAX (char_signed : Bool) : Int :=
  if char_signed then 127 else 255

/-- The conversion of an `int` to `char` in the store `buf[i][j] = i`: the
value modulo 256, in the range of `char`. -/
def to_char (char_signed : Bool) (i : Int) : Int :=
  if char_signed then (i + 128) % 256 - 128 else i % 256

/-- Modelled from the spec: `queens_ok(n, a)` of the absent `../util.hpp`,
the test that no two of the first `n` queens attack each other, where `a[c]`
is the row of the queen in column `c`: for columns `i < j < n` the rows
differ and so do the two diagonals, `a[j] != a[i] - (j - i)` and
`a[j] != a[i] + (j - i)`. -/
def queens_ok (n : Nat) (a : Nat → Int) : Bool :=
  (List.range n).all fun i => (List.range n).all fun j =>
    decide (i < j → a j ≠ a i ∧ a j ≠ a i - ((j : Int) - (i : Int)) ∧
      a j ≠ a i + ((j : Int) - (i : Int)))

/-- The loop `int ret = 0; for (i < taskCount) ret += parts[i]` in `int`
arithmetic: `none` on signed overflow. -/
def sum_parts (parts : List Int) : Option Int :=
  parts.foldl (fun ret part => ret.bind fun r => add_int r part) (some 0)

/-- The entry `buf[i][k]` after the two loops that fill `buf`: `a[k]` for
`k < j`, the row `i` converted to `char` for `k = j`; the local array is not
initialised, and `indeterminate` is what its other entries hold. -/
def buf (char_signed : Bool) (indeterminate : Int) (j : Nat) (a : Nat → Int) (i k : Nat) :
    Int :=
  if k < j then a k else if k = j then to_char char_signed (i : Int) else indeterminate

/-- The task `nqueens<N>(j, a)`: 1 when `N == j`; otherwise a task
`nqueens(j + 1, buf[i])` is spawned for every row `i` in `[0, N)` with
`queens_ok(j + 1, buf[i])`, and the results of the spawned tasks are summed.
The column `j` is never negative; `spawn_many` of the tmc library runs each
task of the range once and gives their results in order. The recursion runs
on fuel: `none` when the fuel is used up. -/
def nqueens (char_signed : Bool) (N : Nat) (indeterminate : Int) :
    Nat → Nat → (Nat → Int) → Option Int
  | 0, _, _ => none
  | fuel + 1, j, a =>
    if N = j then
      some 1
    else
      (all_some (((List.range N).filter
          (fun i => queens_ok (j + 1) (buf char_signed indeterminate j a i))).map
        (fun i => nqueens char_signed N indeterminate fuel (j + 1)
          (buf char_signed indeterminate j a i)))).bind sum_parts

/-- All the placements of `k` queens in `k` columns, one per column, each
in one of `N` rows: the lists of `k` rows. -/
def boards (N : Nat) : Nat → List (List Nat)
  | 0 => [[]]
  | k + 1 => ((List.range N).map (fun i => (boards N k).map (fun e => i :: e))).flatten

/-- No two queens of a placement attack each other: the queens of two
columns `c1 < c2` are in different rows and on different diagonals. -/
def non_attacking (p : List Nat) : Prop :=
  ∀ c2 < p.length, ∀ c1 < c2,
    p.getD c1 0 ≠ p.getD c2 0 ∧ p.getD c1 0 + (c2 - c1) ≠ p.getD c2 0 ∧
      p.getD c2 0 + (c2 - c1) ≠ p.getD c1 0

instance (p : List Nat) : Decidable (non_attacking p) := by
  unfold non_attacking; infer_instance

/-- The complete non-attacking placements of `N` queens on an `N × N`
board. -/
def placements (N : Nat) : List (List Nat) :=
  (boards N N).filter (fun p => decide (non_attacking p))

/-- A queen in row `i` of the next column attacks none of the queens of the
placement `p`. -/
def safe (p : List Nat) (i : Nat) : Bool :=
  (List.range p.length).all fun c =>
    decide (p.getD c 0 ≠ i ∧ p.getD c 0 + (p.length - c) ≠ i ∧ i + (p.length - c) ≠ p.getD c 0)

/-- The number of ways to complete a non-attacking placement `p` with `k`
more columns, by the recursion of `nqueens` without the bound of `int`. -/
def solutions (N : Nat) : Nat → List Nat → Nat
  | 0, _ => 1
  | k + 1, p =>
    (((List.range N).filter (fun i => safe p i)).map (fun i => solutions N k (p ++ [i]))).sum

/-- The number of placements of `k` more columns that complete `p` to a
non-attacking placement. -/
def completions (N k : Nat) (p : List Nat) : Nat :=
  ((boards N k).filter (fun e => decide (non_attacking (p ++ e)))).length

/-- The array `a` holds the rows of the placement `p` in its first
`p.length` entries. -/
def holds (a : Nat → Int) (p : List Nat) : Prop :=
  ∀ c < p.length, a c = (p.getD c 0 : Int)

/-- The three bit masks of a placement `p` seen from the next column: the
rows taken, and the rows on the two diagonals of a queen of `p`. -/
def masks (p : List Nat) (cols d1 d2 : Nat) : Prop :=
  (∀ i, cols.testBit i = true ↔ ∃ c < p.length, p.getD c 0 = i) ∧
  (∀ i, d1.testBit i = true ↔ ∃ c < p.length, p.getD c 0 + (p.length - c) = i) ∧
  (∀ i, d2.testBit i = true ↔ ∃ c < p.length, i + (p.length - c) = p.getD c 0)

/-- The loop over the set bits of `avail`, from the lowest: `g` of each bit
is added to `acc`. -/
def fast_rows (g : Nat → Nat) : Nat → Nat → Nat → Nat
  | 0, _, acc => acc
  | fuel + 1, avail, acc =>
    if avail = 0 then acc
    else
      fast_rows g fuel (avail &&& (avail - 1)) (acc + g (avail - (avail &&& (avail - 1))))

/-- The count of `solutions` on bit masks: `cols`, `d1` and `d2` are the
masks of the placement so far, and the free rows of the next column are the
bits of `full` in none of them. -/
def fast_count (N full : Nat) : Nat → Nat → Nat → Nat → Nat
  | 0, _, _, _ => 1
  | rem + 1, cols, d1, d2 =>
    fast_rows
      (fun bit => fast_count N full rem (cols ||| bit) ((d1 ||| bit) <<< 1) ((d2 ||| bit) >>> 1))
      N (full ^^^ ((cols ||| d1 ||| d2) &&& full)) 0

/-- The statement `fast_count N full rem cols d1 d2 = v`, with the two
recursions of `fast_count` and `fast_rows` written on the recursor of the
natural numbers and the primitive operations. -/
def fast_count_is (N full rem cols d1 d2 v : Nat) : Prop :=
  (Nat.rec (motive := fun _ => Nat → Nat → Nat → Nat) (fun _ _ _ => 1)
    (fun _ ih cols d1 d2 =>
      (Nat.rec (motive := fun _ => Nat → Nat → Nat) (fun _ acc => acc)
        (fun _ ih2 avail acc =>
          cond (Nat.beq avail 0) acc
            ((fun rest => (fun bit => ih2 rest
              (Nat.add acc (ih (Nat.lor cols bit) (Nat.shiftLeft (Nat.lor d1 bit) 1)
                (Nat.shiftRight (Nat.lor d2 bit) 1)))) (Nat.sub avail rest))
              (Nat.land avail (Nat.sub avail 1)))) N : Nat → Nat → Nat)
        (Nat.xor full (Nat.land (Nat.lor (Nat.lor cols d1) d2) full)) 0) rem :
          Nat → Nat → Nat → Nat)
    cols d1 d2 = v

/-! ## Lemmas on the virtual stack -/

theorem le_align (k n : Nat) (hk : 0 < k) : n ≤ align k n := by
  unfold align
  have h1 : (n + k - 1) % k < k := Nat.mod_lt _ hk
  have h2 := Nat.div_add_mod (n + k - 1) k
  have h3 : (n + k - 1) / k * k = k * ((n + k - 1) / k) := Nat.mul_comm _ _
  omega

theorem dvd_align (k n : Nat) : k ∣ align k n := by
  unfold align
  exact Nat.dvd_mul_left _ _

theorem align_of_dvd (k n : Nat) (hk : 0 < k) (h : k ∣ n) : align k n = n := by
  obtain ⟨m, rfl⟩ := h
  unfold align
  have h0 : k * m + k - 1 = k * m + (k - 1) := by omega
  rw [h0, Nat.mul_add_div hk, Nat.div_eq_of_lt (by omega), Nat.add_zero, Nat.mul_comm]

theorem align_pos (k n : Nat) (hk : 0 < k) (hn : 0 < n) : 0 < align k n :=
  Nat.lt_of_lt_of_le hn (le_align k n hk)

theorem align_le_of_dvd (k n m : Nat) (hk : 0 < k) (hm : k ∣ m) (h : n ≤ m) :
    align k n ≤ m := by
  obtain ⟨q, rfl⟩ := hm
  unfold align
  have h1 : (n + k - 1) / k ≤ q := by
    have h2 : n + k - 1 < k * (q + 1) := by
      rw [Nat.mul_add, Nat.mul_one]; omega
    have h3 : (n + k - 1) / k < q + 1 := (Nat.div_lt_iff_lt_mul hk).2 (by rw [Nat.mul_comm]; exact h2)
    omega
  calc (n + k - 1) / k * k ≤ q * k := Nat.mul_le_mul_right k h1
    _ = k * q := Nat.mul_comm _ _

theorem allocate_ok_eq {ε : Type} (k : Nat) (s : virtual_stack ε) (n addr : Nat)
    (s1 : virtual_stack ε) (h : allocate k s n = .ok (addr, s1)) :
    addr = s.top ∧ s1 = { s with top := s.top + align k n } ∧
      s.top + align k n ≤ s.base + s.cap := by
  unfold allocate at h
  by_cases hc : s.top + align k n > s.base + s.cap
  · simp [hc] at h
  · simp [hc] at h
    refine ⟨h.1.symm, h.2.symm, by omega⟩

theorem allocate_fits_iff {ε : Type} (k : Nat) (s : virtual_stack ε) (hwf : wf k s) (n : Nat) :
    s.top + align k n ≤ s.base + s.cap ↔ s.top + n ≤ s.base + s.cap := by
  obtain ⟨hk, hcap, hbase, htop, hlo, hhi⟩ := hwf
  constructor
  · intro h
    have := le_align k n hk
    omega
  · intro h
    have hd : k ∣ s.base + s.cap - s.top :=
      Nat.dvd_sub' (Nat.dvd_add hbase hcap) htop
    have := align_le_of_dvd k n (s.base + s.cap - s.top) hk hd (by omega)
    omega

theorem wf_make_unique {ε : Type} (k base cap : Nat) (hk : 0 < k) (hb : k ∣ base)
    (hc : k ∣ cap) : wf k (make_unique base cap : virtual_stack ε) :=
  ⟨hk, hc, hb, hb, Nat.le_refl _, Nat.le_add_right _ _⟩

theorem wf_allocate {ε : Type} (k : Nat) (s : virtual_stack ε) (hwf : wf k s) (n addr : Nat)
    (s1 : virtual_stack ε) (h : allocate k s n = .ok (addr, s1)) : wf k s1 := by
  obtain ⟨_, rfl, hfit⟩ := allocate_ok_eq k s n addr s1 h
  obtain ⟨hk, hcap, hbase, htop, hlo, hhi⟩ := hwf
  exact ⟨hk, hcap, hbase, Nat.dvd_add htop (dvd_align k n), Nat.le_trans hlo (Nat.le_add_right _ _), hfit⟩

theorem tiled_top (k base : Nat) (live : List (Nat × Nat)) (top : Nat)
    (h : tiled k base live top) : top = base + live_reserved k live := by
  induction live generalizing top with
  | nil => simpa [tiled, live_reserved] using h
  | cons a rest ih =>
    obtain ⟨h1, h2⟩ := h
    have := ih a.1 h2
    simp only [live_reserved, List.map_cons, List.sum_cons] at this ⊢
    omega

theorem client.inv_fresh {ε : Type} (k base cap : Nat) :
    client.inv k base cap none (client.fresh (make_unique base cap : virtual_stack ε)) := by
  refine ⟨rfl, rfl, rfl, rfl, Nat.le_add_right _ _, ?_⟩
  intro _ a ha
  simp [client.fresh] at ha

theorem client.inv_step {ε : Type} (k base cap : Nat) (pf : Option ε) (c c1 : client ε)
    (x : call) (hinv : client.inv k base cap pf c) (h : client.step k c x = some c1) :
    client.inv k base cap pf c1 := by
  obtain ⟨hb, hc, hp, ht, hle, hal⟩ := hinv
  cases x with
  | allocate n =>
    simp only [client.step] at h
    cases hr : allocate k c.stack n with
    | error e =>
      rw [hr] at h
      simp only [Option.some.injEq] at h
      subst h
      exact ⟨hb, hc, hp, ht, hle, hal⟩
    | ok r =>
      obtain ⟨addr, s⟩ := r
      rw [hr] at h
      simp only [Option.some.injEq] at h
      subst h
      obtain ⟨rfl, rfl, hfit⟩ := allocate_ok_eq k c.stack n addr s hr
      refine ⟨hb, hc, hp, ⟨rfl, ht⟩, ?_, ?_⟩
      · simpa [hb, hc] using hfit
      · intro hkb a ha
        simp only [List.mem_cons] at ha
        rcases ha with rfl | ha
        · rw [tiled_top k base c.live _ ht]
          refine Nat.dvd_add hkb ?_
          unfold live_reserved
          apply List.dvd_sum
          intro x hx
          simp only [List.mem_map] at hx
          obtain ⟨y, _, rfl⟩ := hx
          exact dvd_align k _
        · exact hal hkb a ha
  | deallocate =>
    simp only [client.step] at h
    cases hl : c.live with
    | nil => rw [hl] at h; simp at h
    | cons a rest =>
      rw [hl] at h
      simp only [Option.some.injEq] at h
      subst h
      rw [hl] at ht
      obtain ⟨h1, h2⟩ := ht
      refine ⟨hb, hc, hp, h2, ?_, hal⟩
      simp only [deallocate]
      omega

theorem client.inv_run {ε : Type} (k base cap : Nat) (pf : Option ε) (xs : List call)
    (c c1 : client ε) (hinv : client.inv k base cap pf c) (h : client.run k c xs = some c1) :
    client.inv k base cap pf c1 := by
  induction xs generalizing c with
  | nil =>
    simp only [client.run, Option.some.injEq] at h
    subst h
    exact hinv
  | cons x xs ih =>
    simp only [client.run] at h
    cases hs : client.step k c x with
    | none => rw [hs] at h; simp at h
    | some c2 =>
      rw [hs] at h
      exact ih c2 (client.inv_step k base cap pf c c2 x hinv hs) h
theorem dvd_live_reserved (k : Nat) (live : List (Nat × Nat)) : k ∣ live_reserved k live := by
  unfold live_reserved
  apply List.dvd_sum
  intro x hx
  simp only [List.mem_map] at hx
  obtain ⟨y, _, rfl⟩ := hx
  exact dvd_align k _

theorem wf_run {ε : Type} (k base cap : Nat) (hk : 0 < k) (hb : k ∣ base) (hc : k ∣ cap)
    (xs : List call) (c : client ε)
    (hrun : client.run k (client.fresh (make_unique base cap)) xs = some c) : wf k c.stack := by
  obtain ⟨h1, h2, _, ht, hle, _⟩ :=
    client.inv_run k base cap none xs _ c (client.inv_fresh k base cap) hrun
  have htop := tiled_top k base c.live _ ht
  refine ⟨hk, by rw [h2]; exact hc, by rw [h1]; exact hb, ?_, by omega, by omega⟩
  rw [htop]
  exact Nat.dvd_add hb (dvd_live_reserved k c.live)

theorem live_reserved_eq_requested (k : Nat) (hk : 0 < k) (live : List (Nat × Nat))
    (h : ∀ a ∈ live, k ∣ a.2) : live_reserved k live = live_requested live := by
  induction live with
  | nil => rfl
  | cons a rest ih =>
    have h1 := align_of_dvd k a.2 hk (h a (List.mem_cons_self _ _))
    have h2 := ih (fun b hb => h b (List.mem_cons_of_mem _ hb))
    simp only [live_reserved, live_requested, List.map_cons, List.sum_cons] at h2 ⊢
    omega

theorem client.live_pos_step {ε : Type} (k : Nat) (c c1 : client ε) (x : call)
    (hx : ∀ n, x = call.allocate n → 0 < n) (hp : c.live_pos)
    (h : client.step k c x = some c1) : c1.live_pos := by
  cases x with
  | allocate n =>
    simp only [client.step] at h
    cases hr : allocate k c.stack n with
    | error e =>
      rw [hr] at h
      simp only [Option.some.injEq] at h
      subst h
      exact hp
    | ok r =>
      rw [hr] at h
      simp only [Option.some.injEq] at h
      subst h
      intro a ha
      simp only [List.mem_cons] at ha
      rcases ha with rfl | ha
      · exact hx n rfl
      · exact hp a ha
  | deallocate =>
    simp only [client.step] at h
    cases hl : c.live with
    | nil => rw [hl] at h; simp at h
    | cons a rest =>
      rw [hl] at h
      simp only [Option.some.injEq] at h
      subst h
      intro b hb
      exact hp b (by rw [hl]; exact List.mem_cons_of_mem _ hb)

theorem client.live_pos_run {ε : Type} (k : Nat) (xs : List call) (c c1 : client ε)
    (hx : ∀ n, call.allocate n ∈ xs → 0 < n) (hp : c.live_pos)
    (h : client.run k c xs = some c1) : c1.live_pos := by
  induction xs generalizing c with
  | nil =>
    simp only [client.run, Option.some.injEq] at h
    subst h
    exact hp
  | cons x xs ih =>
    simp only [client.run] at h
    cases hs : client.step k c x with
    | none => rw [hs] at h; simp at h
    | some c2 =>
      rw [hs] at h
      refine ih c2 (fun n hn => hx n (List.mem_cons_of_mem _ hn)) ?_ h
      exact client.live_pos_step k c c2 x
        (fun n hn => hx n (by rw [hn]; exact List.mem_cons_self _ _)) hp hs

theorem empty_make_unique {ε : Type} (base cap : Nat) :
    empty (make_unique base cap : virtual_stack ε) = true := by
  simp [empty, make_unique]

theorem empty_iff_of_inv {ε : Type} (k base cap : Nat) (hk : 0 < k) (c : client ε)
    (hinv : client.inv k base cap none c) (hp : c.live_pos) :
    empty c.stack = true ↔ c.live = [] := by
  obtain ⟨hb, _, hpf, ht, _, _⟩ := hinv
  have htop := tiled_top k base c.live _ ht
  constructor
  · intro he
    cases hl : c.live with
    | nil => rfl
    | cons a rest =>
      exfalso
      have hpos := align_pos k a.2 hk (hp a (by rw [hl]; exact List.mem_cons_self _ _))
      rw [hl] at htop
      simp only [live_reserved, List.map_cons, List.sum_cons] at htop
      simp only [empty, hb, hpf, Option.isNone_none, Bool.and_true, beq_iff_eq] at he
      omega
  · intro hl
    rw [hl] at htop
    simp [empty, hb, hpf, htop, live_reserved]

/-! ## Theorems on the virtual stack -/

/-- C1, as stated, fails for a zero-size allocation: after `allocate(0)` on
a fresh stack the allocation is live and `empty()` is still true. -/
theorem empty_iff_all_paired_fails_for_zero_size :
    client.run 16 (client.fresh (make_unique 0 4096 : virtual_stack String)) [call.allocate 0]
        = some { stack := make_unique 0 4096, live := [(0, 0)], returned := [0] } ∧
      empty (make_unique 0 4096 : virtual_stack String) = true ∧
      ([(0, 0)] : List (Nat × Nat)) ≠ [] := by
  refine ⟨rfl, rfl, by simp⟩

/-- C1 (amended): a freshly created stack (single, or each element of
`make_unique(n)`) is empty, and after every LIFO-valid sequence of
allocate/deallocate calls with positive sizes on a fresh stack, `empty()` is
true exactly when no allocation is live. -/
theorem empty_iff_all_paired {ε : Type} (k base cap : Nat) (hk : 0 < k) (xs : List call)
    (hpos : ∀ n, call.allocate n ∈ xs → 0 < n) (c : client ε)
    (hrun : client.run k (client.fresh (make_unique base cap)) xs = some c) :
    (empty c.stack = true ↔ c.live = []) ∧
      empty (make_unique base cap : virtual_stack ε) = true ∧
      ∀ n, ∀ s ∈ (make_unique_array base cap n : List (virtual_stack ε)), empty s = true := by
  refine ⟨?_, empty_make_unique base cap, ?_⟩
  · exact empty_iff_of_inv k base cap hk c
      (client.inv_run k base cap none xs _ c (client.inv_fresh k base cap) hrun)
      (client.live_pos_run k xs _ c hpos (by intro a ha; simp [client.fresh] at ha) hrun)
  · intro n s hs
    simp only [make_unique_array, List.mem_map] at hs
    obtain ⟨i, _, rfl⟩ := hs
    exact empty_make_unique _ _

theorem empty_iff_all_paired_witness :
    (0 < 16 ∧ (∀ n, call.allocate n ∈ [call.allocate 64, call.allocate 128, call.deallocate,
        call.deallocate] → 0 < n) ∧
      client.run 16 (client.fresh (make_unique 0 4096 : virtual_stack String))
        [call.allocate 64, call.allocate 128, call.deallocate, call.deallocate]
        = some { stack := make_unique 0 4096, live := [], returned := [64, 0] }) ∧
    ((empty (make_unique 0 4096 : virtual_stack String) = true ↔ ([] : List (Nat × Nat)) = []) ∧
      empty (make_unique 0 4096 : virtual_stack String) = true ∧
      ∀ n, ∀ s ∈ (make_unique_array 0 4096 n : List (virtual_stack String)), empty s = true) :=
  ⟨⟨by decide, by intro n hn; simp at hn; omega, rfl⟩,
    empty_iff_all_paired 16 0 4096 (by decide)
      [call.allocate 64, call.allocate 128, call.deallocate, call.deallocate]
      (by intro n hn; simp at hn; omega)
      { stack := make_unique 0 4096, live := [], returned := [64, 0] } rfl⟩
/-! ## The scenarios of `test/source/stack.cpp` -/

/-- "Multiple Allocations and Deallocations" on a `Stack<4096>`: non-empty
after `allocate(64); allocate(128)`, empty after the two deallocations in
reverse order. -/
theorem test_multiple_allocations :
    client.run 16 (client.fresh (make_unique 0 4096 : virtual_stack String))
        [call.allocate 64, call.allocate 128]
        = some { stack := ⟨0, 4096, 192, none⟩, live := [(64, 128), (0, 64)], returned := [64, 0] } ∧
      empty (⟨0, 4096, 192, none⟩ : virtual_stack String) = false ∧
      client.run 16 (client.fresh (make_unique 0 4096 : virtual_stack String))
        [call.allocate 64, call.allocate 128, call.deallocate, call.deallocate]
        = some { stack := ⟨0, 4096, 0, none⟩, live := [], returned := [64, 0] } ∧
      empty (⟨0, 4096, 0, none⟩ : virtual_stack String) = true := by
  refine ⟨rfl, by decide, rfl, by decide⟩

/-- "Stack Overflow" on a `Stack<128>`: `allocate(10)` succeeds and the
following `allocate(128)` throws. -/
theorem test_stack_overflow :
    allocate 16 (make_unique 0 128 : virtual_stack String) 10 = .ok (0, ⟨0, 128, 16, none⟩) ∧
      allocate 16 (⟨0, 128, 16, none⟩ : virtual_stack String) 128 = .error .stack_overflow := by
  refine ⟨rfl, rfl⟩

/-- "Alignment Checks" on a `Stack<128>`: two allocations of 10 bytes return
aligned addresses, and the stack is empty after the two deallocations. -/
theorem test_alignment_checks :
    client.run 16 (client.fresh (make_unique 0 128 : virtual_stack String))
        [call.allocate 10, call.allocate 10, call.deallocate, call.deallocate]
        = some { stack := make_unique 0 128, live := [], returned := [16, 0] } ∧
      16 % 16 = 0 ∧ 0 % 16 = 0 ∧ empty (make_unique 0 128 : virtual_stack String) = true := by
  refine ⟨rfl, by decide, by decide, by decide⟩

/-- "full with exception": after `unhandled_exception()` the stack is not
empty, `rethrow_if_unhandled()` throws the exception and the stack is empty
again. -/
theorem test_full_with_exception :
    empty (record_failure (make_unique 0 4096 : virtual_stack String) "Test exception") = false ∧
      take_failure (record_failure (make_unique 0 4096 : virtual_stack String) "Test exception")
        = (some "Test exception", make_unique 0 4096) ∧
      empty (make_unique 0 4096 : virtual_stack String) = true := by
  refine ⟨by decide, by decide, by decide⟩

theorem from_address_interior (j base p : Nat) (hbase : 2 ^ j ∣ base) (hlo : base ≤ p)
    (hhi : p < base + 2 ^ j) : from_address (2 ^ j) p = base := by
  unfold from_address
  rw [Nat.and_pow_two_sub_one_eq_mod]
  obtain ⟨q, rfl⟩ := hbase
  have h1 : p = 2 ^ j * q + (p - 2 ^ j * q) := by omega
  have h2 : p - 2 ^ j * q < 2 ^ j := by omega
  have h3 : p % 2 ^ j = p - 2 ^ j * q := by
    rw [h1, Nat.mul_add_mod, Nat.mod_eq_of_lt (by omega)]
    omega
  omega

/-- C2: on every well-formed stack `allocate(n)` fails with the overflow
error exactly when `top + n > base + C` and otherwise returns an address
(the current `top`); on a fresh stack of capacity 128, `allocate(10)`
succeeds and a subsequent `allocate(128)` fails. -/
theorem allocate_overflow_iff {ε : Type} (k : Nat) (s : virtual_stack ε) (hwf : wf k s)
    (n : Nat) :
    (allocate k s n = .error .stack_overflow ↔ s.top + n > s.base + s.cap) ∧
      (¬ s.top + n > s.base + s.cap → ∃ s1, allocate k s n = .ok (s.top, s1)) ∧
      (k ∣ 128 → ∀ base, ∃ s1, allocate k (make_unique base 128 : virtual_stack ε) 10
          = .ok (base, s1) ∧ allocate k s1 128 = .error .stack_overflow) := by
  have hfit := allocate_fits_iff k s hwf n
  refine ⟨?_, ?_, ?_⟩
  · unfold allocate
    by_cases h : s.top + align k n > s.base + s.cap
    · simp only [h, if_true, true_iff]; omega
    · simp only [h, if_false, false_iff]
      constructor
      · intro hc; cases hc
      · omega
  · intro h
    unfold allocate
    have h1 : ¬ s.top + align k n > s.base + s.cap := by omega
    exact ⟨{ s with top := s.top + align k n }, by simp only [h1, if_false]⟩
  · intro h128 base
    have hk := hwf.1
    have h1 : align k 10 ≤ 128 := align_le_of_dvd k 10 128 hk h128 (by omega)
    have h2 : 10 ≤ align k 10 := le_align k 10 hk
    have h3 : 128 ≤ align k 128 := le_align k 128 hk
    refine ⟨{ (make_unique base 128 : virtual_stack ε) with top := base + align k 10 }, ?_, ?_⟩
    · unfold allocate
      have : ¬ base + align k 10 > base + 128 := by omega
      simp only [make_unique, this, if_false]
    · unfold allocate
      have : base + align k 10 + align k 128 > base + 128 := by omega
      simp only [make_unique, this, if_true]

theorem allocate_overflow_iff_witness :
    wf 16 (⟨0, 128, 16, none⟩ : virtual_stack String) ∧
    ((allocate 16 (⟨0, 128, 16, none⟩ :
          virtual_stack String) 128 = .error .stack_overflow ↔ 16 + 128 > 0 + 128) ∧
      (¬ 16 + 128 > 0 + 128 → ∃ s1, allocate 16 (⟨0, 128, 16, none⟩ : virtual_stack String) 128 = .ok (16, s1)) ∧
      (16 ∣ 128 → ∀ base, ∃ s1, allocate 16 (make_unique base 128 : virtual_stack String) 10
          = .ok (base, s1) ∧ allocate 16 s1 128 = .error .stack_overflow)) :=
  ⟨by decide, allocate_overflow_iff 16 ⟨0, 128, 16, none⟩ (by decide) 128⟩

/-- C3, as stated, fails for a zero-size allocation: on a stack of capacity
128 placed at 128 that is full after `allocate(128)`, `allocate(0)` succeeds
and returns `base + C`, which the mask sends to the next stack; and a handle
recovered from the address of a zero-size allocation on a fresh stack sees
an empty stack while that allocation is live. -/
theorem from_address_fails_for_zero_size :
    allocate 16 (make_unique 128 128 : virtual_stack String) 128
        = .ok (128, ⟨128, 128, 256, none⟩) ∧
      allocate 16 (⟨128, 128, 256, none⟩ :
          virtual_stack String) 0
        = .ok (256, ⟨128, 128, 256, none⟩) ∧
      from_address 128 256 ≠ 128 ∧
      allocate 16 (make_unique 128 128 : virtual_stack String) 0
        = .ok (128, make_unique 128 128) ∧
      handle_empty (arena_set (fun _ => none) 128 (make_unique 128 128 : virtual_stack String))
        (from_address 128 128) = some true := by
  refine ⟨rfl, rfl, by decide, rfl, by decide⟩

/-- C3 (amended): for a stack `A` whose capacity is a power of two and that
is placed at a capacity-aligned address, `from_address` sends every interior
pointer of `A`, in particular every pointer returned by a successful
allocation of positive size, to the address of `A`; the handle reads the
state of `A` (non-empty while that allocation is live), deallocating through
it acts on `A` only and restores the state before the allocation, so it
empties `A` when `A` was empty before. -/
theorem from_address_owner {ε : Type} (k j : Nat) (A A1 : virtual_stack ε) (m : arena ε)
    (n p : Nat) (hk : 0 < k) (hcap : A.cap = 2 ^ j) (hbase : 2 ^ j ∣ A.base)
    (hlo : A.base ≤ A.top) (hn : 0 < n) (halloc : allocate k A n = .ok (p, A1))
    (hm : m A.base = some A1) :
    (∀ q, A.base ≤ q → q < A.base + A.cap → from_address A.cap q = A.base) ∧
      (A.base ≤ p ∧ p < A.base + A.cap) ∧
      from_address A.cap p = A.base ∧
      handle_empty m (from_address A.cap p) = some false ∧
      handle_deallocate m (from_address A.cap p) p n A.base = some A ∧
      (∀ a, a ≠ A.base → handle_deallocate m (from_address A.cap p) p n a = m a) ∧
      (empty A = true →
        handle_empty (handle_deallocate m (from_address A.cap p) p n) (from_address A.cap p)
          = some true) := by
  obtain ⟨rfl, rfl, hfit⟩ := allocate_ok_eq k A n p A1 halloc
  have hpos := align_pos k n hk hn
  have hint : ∀ q, A.base ≤ q → q < A.base + A.cap → from_address A.cap q = A.base := by
    intro q h1 h2
    rw [hcap] at h2 ⊢
    exact from_address_interior j A.base q hbase h1 h2
  have hp : from_address A.cap A.top = A.base := hint A.top hlo (by omega)
  have hd : handle_deallocate m A.base A.top n = arena_set m A.base A := by
    simp only [handle_deallocate, hm, deallocate]
  refine ⟨hint, ⟨hlo, by omega⟩, hp, ?_, ?_, ?_, ?_⟩
  · rw [hp]
    simp only [handle_empty, hm, Option.map_some', empty, Option.some.injEq,
      Bool.and_eq_false_imp, beq_iff_eq]
    intro h
    omega
  · rw [hp, hd]
    simp [arena_set]
  · intro a ha
    rw [hp, hd]
    simp [arena_set, ha]
  · intro he
    rw [hp, hd]
    simp [handle_empty, arena_set, he]

theorem from_address_owner_witness :
    (0 < 16 ∧ (4096 : Nat) = 2 ^ 12 ∧ 2 ^ 12 ∣ 4096 ∧ 4096 ≤ 4096 ∧ 0 < 64 ∧
      allocate 16 (make_unique 4096 4096 : virtual_stack String) 64
        = .ok (4096, ⟨4096, 4096, 4160, none⟩) ∧
      arena_set (fun _ => none) 4096 (⟨4096, 4096, 4160, none⟩ : virtual_stack String) 4096
        = some ⟨4096, 4096, 4160, none⟩) ∧
    from_address 4096 4096 = 4096 ∧
    handle_empty (arena_set (fun _ => none) 4096 (⟨4096, 4096, 4160, none⟩ : virtual_stack String))
      (from_address 4096 4096) = some false ∧
    handle_empty (handle_deallocate (arena_set (fun _ => none) 4096
      (⟨4096, 4096, 4160, none⟩ : virtual_stack String)) (from_address 4096 4096) 4096 64)
      (from_address 4096 4096) = some true :=
  have h := from_address_owner 16 12 (make_unique 4096 4096 : virtual_stack String)
    ⟨4096, 4096, 4160, none⟩
    (arena_set (fun _ => none) 4096 ⟨4096, 4096, 4160, none⟩) 64 4096 (by decide) (by decide)
    (by decide) (by decide) (by decide) rfl (by simp [arena_set, make_unique])
  ⟨⟨by decide, by decide, by decide, by decide, by decide, rfl, by simp [arena_set]⟩,
    h.2.2.1, h.2.2.2.1, h.2.2.2.2.2.2 (by decide)⟩

/-- C4: the one-slot failure channel is a round trip: on a stack with
`top == base` and no pending failure, recording `e` makes `empty()` false,
the next take surfaces exactly `e` and clears the slot so that `empty()` is
true again, and a take with nothing pending surfaces nothing. -/
theorem failure_channel_round_trip {ε : Type} (s : virtual_stack ε) (e : ε)
    (htop : s.top = s.base) (hpf : s.pending_failure = none) :
    empty s = true ∧
      empty (record_failure s e) = false ∧
      (take_failure (record_failure s e)).1 = some e ∧
      (take_failure (record_failure s e)).2 = s ∧
      empty (take_failure (record_failure s e)).2 = true ∧
      (take_failure (take_failure (record_failure s e)).2).1 = none ∧
      take_failure s = (none, s) := by
  obtain ⟨b, c, t, pf⟩ := s
  simp only at htop hpf
  subst htop hpf
  simp [empty, record_failure, take_failure]

theorem failure_channel_round_trip_witness :
    ((make_unique 0 4096 : virtual_stack String).top = (make_unique 0 4096 : virtual_stack String).base ∧
      (make_unique 0 4096 : virtual_stack String).pending_failure = none) ∧
    empty (record_failure (make_unique 0 4096 : virtual_stack String) "Test exception") = false ∧
    (take_failure (record_failure (make_unique 0 4096 : virtual_stack String) "Test exception")).1
      = some "Test exception" :=
  have h := failure_channel_round_trip (make_unique 0 4096 : virtual_stack String)
    "Test exception" rfl rfl
  ⟨⟨rfl, rfl⟩, h.2.1, h.2.2.1⟩

/-- C5: every address returned by `allocate` in a LIFO-valid sequence of
calls on a stack placed at an aligned address is a multiple of the
alignment `detail::k_new_align`, whatever the requested sizes are. -/
theorem allocate_aligned {ε : Type} (k base cap : Nat) (xs : List call) (c : client ε)
    (hbase : k ∣ base)
    (hrun : client.run k (client.fresh (make_unique base cap)) xs = some c) :
    ∀ a ∈ c.returned, a % k = 0 := by
  have hinv := client.inv_run k base cap none xs _ c (client.inv_fresh k base cap) hrun
  intro a ha
  exact Nat.mod_eq_zero_of_dvd (hinv.2.2.2.2.2 hbase a ha)

theorem allocate_aligned_witness :
    (16 ∣ 256 ∧
      client.run 16 (client.fresh (make_unique 256 128 : virtual_stack String))
        [call.allocate 10, call.allocate 10]
        = some { stack := ⟨256, 128, 288, none⟩, live := [(272, 10), (256, 10)], returned := [272, 256] }) ∧
    ∀ a ∈ [272, 256], a % 16 = 0 :=
  ⟨⟨by decide, rfl⟩,
    allocate_aligned 16 256 128 [call.allocate 10, call.allocate 10]
      ({ stack := ⟨256, 128, 288, none⟩, live := [(272, 10), (256, 10)], returned := [272, 256] } :
        client String)
      (by decide) rfl⟩

/-- C6, as stated, fails for a size that is not a multiple of the alignment:
after `allocate(10)` on a fresh stack of capacity 128 (alignment 16) the
returned address is 0 and `top` is 16, so `addr + n == top` is false. -/
theorem deallocate_pre_fails_for_unaligned_size :
    allocate 16 (make_unique 0 128 : virtual_stack String) 10 = .ok (0, ⟨0, 128, 16, none⟩) ∧
      deallocate_pre (⟨0, 128, 16, none⟩ : virtual_stack String) 0 10 = false := by
  refine ⟨rfl, by decide⟩

/-- C6 (amended): if `allocate(n)` succeeds and returns `addr`, then `addr`
is the value `top` had before, `top` is now `addr` plus `n` rounded up to
the alignment (so the precondition `addr + n == top` holds when `n` is a
multiple of the alignment), and an immediately following
`deallocate(addr, n)` resets `top` to `addr`: allocate followed by the
matching deallocate is the identity on the stack state. -/
theorem allocate_deallocate_identity {ε : Type} (k : Nat) (s s1 : virtual_stack ε)
    (n addr : Nat) (h : allocate k s n = .ok (addr, s1)) :
    addr = s.top ∧
      addr + align k n = s1.top ∧
      (0 < k → k ∣ n → deallocate_pre s1 addr n = true) ∧
      (deallocate s1 addr n).top = addr ∧
      deallocate s1 addr n = s := by
  obtain ⟨rfl, rfl, _⟩ := allocate_ok_eq k s n addr s1 h
  refine ⟨rfl, rfl, ?_, rfl, rfl⟩
  intro hk hn
  simp [deallocate_pre, align_of_dvd k n hk hn]

theorem allocate_deallocate_identity_witness :
    allocate 16 (make_unique 0 128 : virtual_stack String) 10 = .ok (0, ⟨0, 128, 16, none⟩) ∧
    (0 = (make_unique 0 128 : virtual_stack String).top ∧
      0 + align 16 10 = (⟨0, 128, 16, none⟩ : virtual_stack String).top ∧
      (0 < 16 → 16 ∣ 10 → deallocate_pre (⟨0, 128, 16, none⟩ : virtual_stack String) 0 10 = true) ∧
      (deallocate (⟨0, 128, 16, none⟩ : virtual_stack String) 0 10).top = 0 ∧
      deallocate (⟨0, 128, 16, none⟩ : virtual_stack String) 0 10 = make_unique 0 128) :=
  ⟨rfl, allocate_deallocate_identity 16 (make_unique 0 128) ⟨0, 128, 16, none⟩ 10 0 rfl⟩

/-- C7, as stated, fails for a size that is not a multiple of the alignment:
after `allocate(10)` on a fresh stack (alignment 16) one allocation of 10
bytes is live and `top - base` is 16. -/
theorem top_eq_live_requested_fails_for_unaligned_size :
    client.run 16 (client.fresh (make_unique 0 128 : virtual_stack String)) [call.allocate 10]
        = some { stack := ⟨0, 128, 16, none⟩, live := [(0, 10)], returned := [0] } ∧
      (⟨0, 128, 16, none⟩ : virtual_stack String).top - (⟨0, 128, 16, none⟩ : virtual_stack String).base
        ≠ live_requested [(0, 10)] := by
  refine ⟨rfl, by decide⟩

/-- C7 (amended): after every call of a LIFO-valid sequence on a fresh
stack, `top - base` equals the sum of the sizes of the live allocations,
each rounded up to the alignment; it equals the sum of the requested sizes
when these are multiples of the alignment; and `base ≤ top ≤ base + C`. -/
theorem top_eq_live_reserved {ε : Type} (k base cap : Nat) (xs : List call) (c : client ε)
    (hk : 0 < k)
    (hrun : client.run k (client.fresh (make_unique base cap)) xs = some c) :
    c.stack.top - c.stack.base = live_reserved k c.live ∧
      ((∀ a ∈ c.live, k ∣ a.2) → c.stack.top - c.stack.base = live_requested c.live) ∧
      c.stack.base ≤ c.stack.top ∧ c.stack.top ≤ c.stack.base + c.stack.cap := by
  obtain ⟨hb, hc, _, ht, hle, _⟩ :=
    client.inv_run k base cap none xs _ c (client.inv_fresh k base cap) hrun
  have htop := tiled_top k base c.live _ ht
  refine ⟨by omega, ?_, by omega, by omega⟩
  intro hdvd
  have := live_reserved_eq_requested k hk c.live hdvd
  omega

theorem top_eq_live_reserved_witness :
    (0 < 16 ∧
      client.run 16 (client.fresh (make_unique 0 128 : virtual_stack String))
        [call.allocate 10, call.allocate 32, call.deallocate, call.allocate 10]
        = some { stack := ⟨0, 128, 32, none⟩, live := [(16, 10), (0, 10)], returned := [16, 16, 0] }) ∧
    (32 - 0 = live_reserved 16 [(16, 10), (0, 10)] ∧
      ((∀ a ∈ [(16, 10), (0, 10)], 16 ∣ a.2) → 32 - 0 = live_requested [(16, 10), (0, 10)]) ∧
      0 ≤ 32 ∧ 32 ≤ 0 + 128) :=
  ⟨⟨by decide, rfl⟩,
    top_eq_live_reserved 16 0 128
      [call.allocate 10, call.allocate 32, call.deallocate, call.allocate 10]
      ({ stack := ⟨0, 128, 32, none⟩, live := [(16, 10), (0, 10)], returned := [16, 16, 0] } :
        client String)
      (by decide) rfl⟩

/-! ## Theorems on result binding -/

/-- C8, as stated, fails when the slot type accepts the produced value only
through an implicit conversion: for `R = boxed_slot`, `T = boxed_value` and
the produced `int` 23, `assignable<R &, int>` holds, so `return_value` takes
the branch `*address() = std::forward<U>(value)`, and that assignment
constructs a temporary `T` from 23 by the converting constructor of `T`. -/
theorem return_value_assignable_branch_constructs_temporary :
    (promise_result.return_value_forward (some boxed_slot_from_int) boxed_value.mk
        boxed_slot_from_value ⟨200⟩ (fun _ => ⟨0⟩) (23 : Int)).temporaries
      = [.inr ⟨23⟩] ∧
    (promise_result.return_value_forward (some boxed_slot_from_int) boxed_value.mk
        boxed_slot_from_value ⟨200⟩ (fun _ => ⟨0⟩) (23 : Int)).temporaries ≠ [] ∧
    (promise_result.return_value_forward (some boxed_slot_from_int) boxed_value.mk
        boxed_slot_from_value ⟨200⟩ (fun _ => ⟨0⟩) (23 : Int)).slots 200 = ⟨23⟩ := by
  refine ⟨rfl, ?_, rfl⟩
  intro h
  cases h

/-- C8 (amended): each of the three overloads of `return_value` for a
produced value writes the slot at the stored return address `m_ret_address`.
When the assignment from the produced value is well-formed it performs
`*address() = v` and constructs no `T` of its own: no temporary at all when
the assignment operator takes the operand itself, and the temporary of the
implicit conversion when the operand reaches the operator through one.
Otherwise it constructs the temporary `T(v)` first and performs
`*address() = T(v)`. No other slot changes and the promise, so the stored
return address, is unchanged. -/
theorem return_value_policy {R T U P : Type} (self : promise_result R) (slots : Nat → R)
    (copy_T : T → T) (construct_T_U : U → T) (assign_R_T assign_lvalue : assignment R T P)
    (b : Bool) (v : T) (u : U) :
    -- `return_value(T const &)`, assignable by an operator that takes the operand
    (∀ f : R → T → R,
      (promise_result.return_value_const (some (.direct f)) copy_T assign_R_T self slots
          v).slots self.m_ret_address = f (slots self.m_ret_address) v ∧
      (promise_result.return_value_const (some (.direct f)) copy_T assign_R_T self slots
          v).temporaries = []) ∧
      -- `return_value(T const &)`, assignable through an implicit conversion
      (∀ (c : T → P) (f : R → P → R),
        (promise_result.return_value_const (some (.converting c f)) copy_T assign_R_T self
            slots v).slots self.m_ret_address = f (slots self.m_ret_address) (c v) ∧
        (promise_result.return_value_const (some (.converting c f)) copy_T assign_R_T self
            slots v).temporaries = [.inr (c v)]) ∧
      -- `return_value(T const &)`, not assignable: through the temporary `T(v)`
      ((promise_result.return_value_const none copy_T assign_R_T self slots v).slots
            self.m_ret_address
          = assign_R_T.assigned (slots self.m_ret_address) (copy_T v) ∧
        (promise_result.return_value_const none copy_T assign_R_T self slots v).temporaries
          = .inl (copy_T v) :: (assign_R_T.converted (copy_T v)).map .inr) ∧
      -- `return_value(T &&)`
      ((promise_result.return_value_rvalue b assign_R_T assign_lvalue self slots v).slots
            self.m_ret_address
          = (if b then assign_R_T else assign_lvalue).assigned (slots self.m_ret_address) v ∧
        (promise_result.return_value_rvalue b assign_R_T assign_lvalue self slots
            v).temporaries
          = ((if b then assign_R_T else assign_lvalue).converted v).map .inr) ∧
      -- `return_value(U &&)`, assignable by an operator that takes the operand
      (∀ f : R → U → R,
        (promise_result.return_value_forward (some (.direct f)) construct_T_U assign_R_T self
            slots u).slots self.m_ret_address = f (slots self.m_ret_address) u ∧
        (promise_result.return_value_forward (some (.direct f)) construct_T_U assign_R_T self
            slots u).temporaries = []) ∧
      -- `return_value(U &&)`, assignable through an implicit conversion
      (∀ (c : U → P) (f : R → P → R),
        (promise_result.return_value_forward (some (.converting c f)) construct_T_U
            assign_R_T self slots u).slots self.m_ret_address
          = f (slots self.m_ret_address) (c u) ∧
        (promise_result.return_value_forward (some (.converting c f)) construct_T_U
            assign_R_T self slots u).temporaries = [.inr (c u)]) ∧
      -- `return_value(U &&)`, not assignable: through the temporary `T(v)`
      ((promise_result.return_value_forward none construct_T_U assign_R_T self slots u).slots
            self.m_ret_address
          = assign_R_T.assigned (slots self.m_ret_address) (construct_T_U u) ∧
        (promise_result.return_value_forward none construct_T_U assign_R_T self slots
            u).temporaries
          = .inl (construct_T_U u) :: (assign_R_T.converted (construct_T_U u)).map .inr) ∧
      -- the other slots and the promise
      (∀ (c : assignable R T P) (d : assignable R U P) (a : Nat), a ≠ self.m_ret_address →
        (promise_result.return_value_const c copy_T assign_R_T self slots v).slots a = slots a ∧
        (promise_result.return_value_rvalue b assign_R_T assign_lvalue self slots v).slots a
          = slots a ∧
        (promise_result.return_value_forward d construct_T_U assign_R_T self slots u).slots a
          = slots a) ∧
      (∀ (c : assignable R T P) (d : assignable R U P),
        (promise_result.return_value_const c copy_T assign_R_T self slots v).self = self ∧
        (promise_result.return_value_rvalue b assign_R_T assign_lvalue self slots v).self
          = self ∧
        (promise_result.return_value_forward d construct_T_U assign_R_T self slots u).self
          = self) := by
  refine ⟨?_, ?_, ?_, ?_, ?_, ?_, ?_, ?_, ?_⟩
  · intro f
    simp [promise_result.return_value_const, promise_result.assign_address,
      promise_result.address, assignment.assigned, assignment.converted, write]
  · intro c f
    simp [promise_result.return_value_const, promise_result.assign_address,
      promise_result.address, assignment.assigned, assignment.converted, write]
  · simp [promise_result.return_value_const, promise_result.assign_address,
      promise_result.address, write]
  · cases b <;>
      simp [promise_result.return_value_rvalue, promise_result.assign_address,
        promise_result.address, write]
  · intro f
    simp [promise_result.return_value_forward, promise_result.assign_address,
      promise_result.address, assignment.assigned, assignment.converted, write]
  · intro c f
    simp [promise_result.return_value_forward, promise_result.assign_address,
      promise_result.address, assignment.assigned, assignment.converted, write]
  · simp [promise_result.return_value_forward, promise_result.assign_address,
      promise_result.address, write]
  · intro c d a ha
    refine ⟨?_, ?_, ?_⟩
    · cases c <;>
        simp [promise_result.return_value_const, promise_result.assign_address,
          promise_result.address, write, ha]
    · cases b <;>
        simp [promise_result.return_value_rvalue, promise_result.assign_address,
          promise_result.address, write, ha]
    · cases d <;>
        simp [promise_result.return_value_forward, promise_result.assign_address,
          promise_result.address, write, ha]
  · intro c d
    refine ⟨?_, ?_, ?_⟩
    · cases c <;> rfl
    · cases b <;> rfl
    · cases d <;> rfl

/-- C9, as stated, fails when the slot has no `emplace` but its type is move
assignable and constructible from the arguments: for `R = int`,
`T = unsigned char` and the argument 300, `emplace` assigns the temporary
`int(300)`, so the slot holds 300; the temporary `(unsigned char)300` is 44. -/
theorem emplace_not_always_value_type_temporary :
    int_slot_unsigned_char_value.emplace = none ∧
      (promise_result.emplace int_slot_unsigned_char_value 0 (fun _ => 0) 300).1 0 = 300 ∧
      (promise_result.emplace int_slot_unsigned_char_value 0 (fun _ => 0) 300).2 = [.inl 300] ∧
      int_slot_unsigned_char_value.assign_R_T 0 (int_slot_unsigned_char_value.construct_T 300)
        = 44 := by
  refine ⟨rfl, by decide, by decide, by decide⟩

/-- C9 (amended): applied to a slot and the forwarded arguments, the lambda
`emplace` uses the in-place construction of the slot whenever the slot
exposes it; otherwise, when the slot type is move assignable and
constructible from the arguments, it assigns a temporary of the slot type,
`*ret = R(args...)`; and in the remaining case it assigns a temporary of the
value type, `*ret = T(args...)`. No other slot changes. -/
theorem emplace_policy {R T Args : Type} (tr : in_place_traits R T Args) (ret : Nat)
    (slots : Nat → R) (args : Args) :
    (∀ member, tr.emplace = some member →
        promise_result.emplace tr ret slots args
          = (write slots ret (member (slots ret) args), [])) ∧
      (∀ assign construct, tr.emplace = none → tr.move_assign = some assign →
        tr.construct_R = some construct →
        promise_result.emplace tr ret slots args
          = (write slots ret (assign (slots ret) (construct args)), [.inl (construct args)])) ∧
      (tr.emplace = none → (tr.move_assign = none ∨ tr.construct_R = none) →
        promise_result.emplace tr ret slots args
          = (write slots ret (tr.assign_R_T (slots ret) (tr.construct_T args)),
              [.inr (tr.construct_T args)])) ∧
      (∀ a, a ≠ ret → (promise_result.emplace tr ret slots args).1 a = slots a) := by
  obtain ⟨e, m, c, ct, at_⟩ := tr
  refine ⟨?_, ?_, ?_, ?_⟩
  · intro member h
    simp only at h
    subst h
    rfl
  · intro assign construct h1 h2 h3
    simp only at h1 h2 h3
    subst h1 h2 h3
    rfl
  · intro h1 h2
    simp only at h1 h2
    subst h1
    rcases h2 with h2 | h2
    · subst h2
      rfl
    · subst h2
      cases m <;> rfl
  · intro a ha
    cases e with
    | some member => simp [promise_result.emplace, write, ha]
    | none =>
      cases m with
      | none => simp [promise_result.emplace, write, ha]
      | some assign =>
        cases c with
        | none => simp [promise_result.emplace, write, ha]
        | some construct => simp [promise_result.emplace, write, ha]

theorem emplace_policy_witness :
    promise_result.emplace optional_slot_int_value 0 (fun _ => none) 78
        = (write (fun _ => none) 0 (some 78), []) ∧
      promise_result.emplace int_slot_unsigned_char_value 0 (fun _ => 0) 300
        = (write (fun _ => 0) 0 300, [.inl 300]) :=
  ⟨(emplace_policy optional_slot_int_value 0 (fun _ => none) 78).1 _ rfl,
    (emplace_policy int_slot_unsigned_char_value 0 (fun _ => 0) 300).2.1 _ _ rfl rfl rfl⟩

/-- C10, as stated, fails for the test `reference_int` (`R = int`,
`T = int &`, `co_return x`): the return slot at address 200 is another
object than `x` at address 100; after the call it holds 23, a copy of the
value of `x`, and after a later `x = 99` it still holds 23. -/
theorem return_value_reference_copies :
    (promise_result.mk 200 : promise_result Int).address ≠ 100 ∧
      promise_result.return_value_reference false (fun _ v => v) (fun _ v => (v, v))
        ⟨200⟩ memory_with_x 100 200 = 23 ∧
      write (promise_result.return_value_reference false (fun _ v => v) (fun _ v => (v, v))
        ⟨200⟩ memory_with_x 100) 100 99 200 = 23 ∧
      write (promise_result.return_value_reference false (fun _ v => v) (fun _ v => (v, v))
        ⟨200⟩ memory_with_x 100) 100 99 100 = 99 := by
  refine ⟨by decide, by decide, by decide, by decide⟩

/-- C10 (amended): when the produced value type `T` is a reference and the
referent is another object than the return slot, `return_value` assigns the
referent to the slot. For an lvalue reference (`int &` in the test) the slot
receives `*address() = value`, a copy of the value for an `int`; nothing
else changes, the referent included, and a later write to the referent does
not show in the slot. For an rvalue reference the slot receives
`*address() = std::move(value)`, the referent is left in its moved-from
state, and nothing else changes. -/
theorem return_value_reference_assigns {O : Type} (assign_lvalue : O → O → O)
    (assign_move : O → O → O × O) (self : promise_result O) (mem : Nat → O) (value : Nat)
    (hne : value ≠ self.address) :
    promise_result.return_value_reference false assign_lvalue assign_move self mem value
          self.address = assign_lvalue (mem self.address) (mem value) ∧
      (∀ a, a ≠ self.address →
        promise_result.return_value_reference false assign_lvalue assign_move self mem value a
          = mem a) ∧
      (∀ w, write (promise_result.return_value_reference false assign_lvalue assign_move self
          mem value) value w self.address = assign_lvalue (mem self.address) (mem value)) ∧
      promise_result.return_value_reference true assign_lvalue assign_move self mem value
          self.address = (assign_move (mem self.address) (mem value)).1 ∧
      promise_result.return_value_reference true assign_lvalue assign_move self mem value value
          = (assign_move (mem self.address) (mem value)).2 ∧
      (∀ a, a ≠ self.address → a ≠ value →
        promise_result.return_value_reference true assign_lvalue assign_move self mem value a
          = mem a) := by
  have hne2 : self.address ≠ value := fun h => hne h.symm
  refine ⟨?_, ?_, ?_, ?_, ?_, ?_⟩
  · simp [promise_result.return_value_reference, write]
  · intro a ha
    simp [promise_result.return_value_reference, write, ha]
  · intro w
    simp [promise_result.return_value_reference, write, hne2]
  · simp [promise_result.return_value_reference, write]
  · simp [promise_result.return_value_reference, write, hne]
  · intro a ha hv
    simp [promise_result.return_value_reference, write, ha, hv]

theorem return_value_reference_assigns_witness :
    (100 : Nat) ≠ (promise_result.mk 200 : promise_result Int).address ∧
      promise_result.return_value_reference false (fun _ v => v) (fun _ v => (v, v))
        ⟨200⟩ memory_with_x 100 200 = 23 ∧
      promise_result.return_value_reference false (fun _ v => v) (fun _ v => (v, v))
        ⟨200⟩ memory_with_x 100 100 = 23 :=
  have h := return_value_reference_assigns (fun _ v => v) (fun _ v => (v, v))
    (promise_result.mk 200 : promise_result Int) memory_with_x 100 (by decide)
  ⟨by decide, h.1, h.2.1 100 (by decide)⟩

/-! ## Theorems on the task API -/

/-- C11: with `R` `void` or `detail::ignore_t` the promise has no return
address and `return_void()` changes no state, but a body that produces a
value is not accepted: for `co_return 23` (test `trivial_void`, `R = void`,
`T = int`) the specialisation declares no `return_value`. -/
theorem promise_result_void_rejects_value (self : promise_result_void) (slots : Nat → Int) :
    self.return_void slots = (self, slots) ∧
      self.co_return slots (co_return_operand.void : co_return_operand Int)
        = some (self, slots) ∧
      self.co_return slots (co_return_operand.value (23 : Int)) = none := by
  refine ⟨rfl, rfl, rfl⟩

/-- C12, as stated, fails for a type `T` that is an rvalue reference: for
kind `fork` the concept and the `static_assert` are satisfied although the
parameter `T &&` is an rvalue reference. -/
theorem no_forked_rvalue_accepts_rvalue_reference :
    no_forked_rvalue .rvalue_reference .fork = true ∧
      first_arg_t_assert .fork .rvalue_reference = true ∧
      add_rvalue_reference .rvalue_reference ≠ .lvalue_reference := by
  decide

/-- C12 (amended): `no_forked_rvalue<T, Self>` and the `static_assert` of
`first_arg_t` hold for kind `fork` exactly when `T` is a reference type; for
a type `T` deduced for a forwarding parameter `T &&` that is exactly when the
argument is an lvalue, that is when `T &&` is an lvalue reference; and they
hold for every `T` when the kind is `call` or `root`. -/
theorem no_forked_rvalue_iff (T : type_kind) (tag_value : tag) (argument_is_lvalue : Bool) :
    no_forked_rvalue T .fork = is_reference_v T ∧
      first_arg_t_assert .fork T = is_reference_v T ∧
      (no_forked_rvalue (deduced argument_is_lvalue) .fork = true ↔
        add_rvalue_reference (deduced argument_is_lvalue) = .lvalue_reference) ∧
      (no_forked_rvalue (deduced argument_is_lvalue) .fork = true ↔ argument_is_lvalue = true) ∧
      (first_arg_t_assert .fork (deduced argument_is_lvalue) = true ↔
        argument_is_lvalue = true) ∧
      (tag_value ≠ .fork → no_forked_rvalue T tag_value = true ∧
        first_arg_t_assert tag_value T = true) := by
  cases T <;> cases tag_value <;> cases argument_is_lvalue <;> decide

/-- C17: under the precondition that the parent is present unless the kind
is `root`, `invoke_bind` returns a child whose parent link is the supplied
parent (absent only for a root); when the return-address type is not `void`
its return address is the slot `ret` of the packet, and when it is `void` the
return address stays as the child was created. -/
theorem invoke_bind_sets_parent_and_ret (p : packet) (parent : Option Nat)
    (hpre : parent.isSome = true ∨ p.tag_value = tag.root) :
    ∃ child, p.invoke_bind parent = some child ∧
      child.parent = parent ∧
      (child.parent = none → p.tag_value = tag.root) ∧
      (∀ ret, p.ret = some ret → child.ret_address = some ret) ∧
      (p.ret = none → child.ret_address = p.child.ret_address) := by
  have hc : (parent.isSome || p.tag_value == tag.root) = true := by
    rcases hpre with h | h
    · simp [h]
    · simp [h]
  have hroot : parent = none → p.tag_value = tag.root := by
    intro hn
    rcases hpre with h | h
    · simp [hn] at h
    · exact h
  cases hr : p.ret with
  | none =>
    refine ⟨p.child.set_parent parent, ?_, rfl, hroot, ?_, ?_⟩
    · simp [packet.invoke_bind, hc, hr]
    · intro ret h; cases h
    · intro _; rfl
  | some r =>
    refine ⟨(p.child.set_parent parent).set_ret_address r, ?_, rfl, hroot, ?_, ?_⟩
    · simp [packet.invoke_bind, hc, hr]
    · intro ret h
      cases h
      rfl
    · intro h; cases h

theorem invoke_bind_sets_parent_and_ret_witness :
    ((some 4096 : Option Nat).isSome = true ∨ tag.fork = tag.root) ∧
      ∃ child, packet.invoke_bind ⟨some 200, tag.fork, ⟨none, none⟩⟩ (some 4096) = some child ∧
        child.parent = some 4096 ∧
        (child.parent = none → tag.fork = tag.root) ∧
        (∀ ret, some 200 = some ret → child.ret_address = some ret) ∧
        ((some 200 : Option Nat) = none → child.ret_address = none) :=
  ⟨Or.inl rfl, invoke_bind_sets_parent_and_ret ⟨some 200, tag.fork, ⟨none, none⟩⟩ (some 4096)
    (Or.inl rfl)⟩

/-- C18: the enumerators of `tag` are exactly `root`, `call` and `fork`, but
`task copy.hpp` names a tag value `invoke` (in `result_matches`, in the
packets of `async_fn::operator()` and `async_mem_fn::operator()`, and in the
`static_assert` after `first_arg_base`) that is no enumerator of `tag`. -/
theorem named_tag_invoke_is_no_enumerator :
    (∀ t : tag, t = .root ∨ t = .call ∨ t = .fork) ∧
      (named_tags.filter (fun u => (tag.of_name u.2).isNone)).map (fun u => u.1)
        = ["result_matches", "async_fn::operator()", "async_mem_fn::operator()",
            "first_arg_base"] ∧
      tag.of_name "invoke" = none ∧
      async_fn_packet_tag = none := by
  refine ⟨?_, by decide, by decide, by decide⟩
  intro t
  cases t <;> simp

/-! ## Theorems on the Fibonacci benchmarks -/

theorem fib_46_eq : Nat.fib 46 = 1836311903 := by decide

theorem fib_47_eq : Nat.fib 47 = 2971215073 := by decide

theorem fib_le_int_max (n : Nat) (h : n ≤ 46) : (Nat.fib n : Int) ≤ INT_MAX := by
  have h1 : Nat.fib n ≤ Nat.fib 46 := Nat.fib_mono h
  rw [fib_46_eq] at h1
  unfold INT_MAX
  omega

theorem fib_small (sched : schedule) (path : List Bool) (n : Int) (h : n < 2) :
    fib sched path n = some n := by
  rw [fib]
  simp [h]

theorem fib_step (sched : schedule) (path : List Bool) (n : Int) (h : ¬ n < 2) (a b : Int)
    (ha : ∀ p, fib sched p (n - 1) = some a) (hb : ∀ p, fib sched p (n - 2) = some b) :
    fib sched path n = add_int a b := by
  rw [fib]
  by_cases hs : sched path <;> simp [h, hs, ha, hb]

theorem fib_eq_nat_fib (sched : schedule) (n : Nat) (h : n ≤ 46) :
    ∀ path, fib sched path (n : Int) = some (Nat.fib n : Int) := by
  induction n using Nat.strong_induction_on with
  | _ n ih =>
    intro path
    by_cases h2 : n < 2
    · rw [fib_small sched path n (by omega)]
      interval_cases n <;> simp
    · obtain ⟨m, rfl⟩ : ∃ m, n = m + 2 := ⟨n - 2, by omega⟩
      have ha := ih (m + 1) (by omega) (by omega)
      have hb := ih m (by omega) (by omega)
      have e1 : ((m + 2 : Nat) : Int) - 1 = ((m + 1 : Nat) : Int) := by push_cast; ring
      have e2 : ((m + 2 : Nat) : Int) - 2 = (m : Int) := by push_cast; ring
      rw [fib_step sched path _ (by omega) (Nat.fib (m + 1)) (Nat.fib m)
        (by intro p; rw [e1]; exact ha p) (by intro p; rw [e2]; exact hb p)]
      have hle := fib_le_int_max (m + 2) h
      have hadd : Nat.fib (m + 2) = Nat.fib m + Nat.fib (m + 1) := Nat.fib_add_two
      unfold add_int
      have h0 : (0 : Int) ≤ Nat.fib (m + 1) + Nat.fib m := by positivity
      rw [if_pos]
      · rw [hadd]; push_cast; congr 1; ring
      · constructor
        · unfold INT_MIN; omega
        · rw [hadd] at hle; push_cast at hle; omega

theorem fib_93_lt : Nat.fib 93 < 2 ^ 64 := by decide

theorem tmc_fib_eq_nat_fib (n : Nat) (h : n ≤ 93) : tmc.fib n = Nat.fib n := by
  induction n using Nat.strong_induction_on with
  | _ n ih =>
    rw [tmc.fib]
    by_cases h2 : n < 2
    · simp only [h2, if_true]
      interval_cases n <;> simp
    · obtain ⟨m, rfl⟩ : ∃ m, n = m + 2 := ⟨n - 2, by omega⟩
      simp only [h2, if_false]
      have e1 : m + 2 - 1 = m + 1 := by omega
      have e2 : m + 2 - 2 = m := by omega
      rw [e1, e2, ih (m + 1) (by omega) (by omega), ih m (by omega) (by omega)]
      have hadd : Nat.fib (m + 2) = Nat.fib m + Nat.fib (m + 1) := Nat.fib_add_two
      have hlt : Nat.fib (m + 2) < 2 ^ 64 :=
        Nat.lt_of_le_of_lt (Nat.fib_mono h) fib_93_lt
      rw [Nat.mod_eq_of_lt (by omega)]
      omega

theorem to_int_of_le (x : Nat) (h : (x : Int) ≤ INT_MAX) : to_int x = x := by
  unfold to_int
  unfold INT_MAX at h
  omega

theorem fib_47_overflows (sched : schedule) (path : List Bool) : fib sched path 47 = none := by
  have ha : ∀ p, fib sched p (47 - 1) = some (Nat.fib 46 : Int) := fun p =>
    fib_eq_nat_fib sched 46 (by omega) p
  have hb : ∀ p, fib sched p (47 - 2) = some (Nat.fib 45 : Int) := fun p =>
    fib_eq_nat_fib sched 45 (by omega) p
  rw [fib_step sched path 47 (by omega) _ _ ha hb]
  have h45 : Nat.fib 45 = 1134903170 := by decide
  rw [fib_46_eq, h45]
  decide

/-- C13, as stated, fails for `n = 47`: the 47th Fibonacci number is
2971215073, more than an `int` holds, and the sum `fib(46) + fib(45)`
overflows. -/
theorem fib_fails_at_47 :
    fib (fun _ => true) [] 47 = none ∧ Nat.fib 47 = 2971215073 ∧
      ¬ ((2971215073 : Int) ≤ INT_MAX) := by
  refine ⟨fib_47_overflows _ _, fib_47_eq, by decide⟩

/-- C13 (amended): for every `n` with `0 ≤ n ≤ 46` the fork-join `fib(n)`
returns the `n`-th Fibonacci number, whatever the schedule (worker count,
pool variant) and the place of the task in the run, and so does the tmc
`fib`; in particular `fib(30) = 832040`, `fib(35) = 9227465` and
`fib(40) = 102334155`. -/
theorem fib_correct (n : Nat) (h : n ≤ 46) (sched : schedule) (path : List Bool) :
    fib sched path n = some (Nat.fib n : Int) ∧
      (∀ (sched1 : schedule) (path1 : List Bool), fib sched1 path1 n = fib sched path n) ∧
      tmc.fib n = Nat.fib n ∧
      fib sched path 30 = some 832040 ∧ fib sched path 35 = some 9227465 ∧
      fib sched path 40 = some 102334155 := by
  have h30 : Nat.fib 30 = 832040 := by decide
  have h35 : Nat.fib 35 = 9227465 := by decide
  have h40 : Nat.fib 40 = 102334155 := by decide
  refine ⟨fib_eq_nat_fib sched n h path, ?_, tmc_fib_eq_nat_fib n (by omega), ?_, ?_, ?_⟩
  · intro sched1 path1
    rw [fib_eq_nat_fib sched n h path, fib_eq_nat_fib sched1 n h path1]
  · have := fib_eq_nat_fib sched 30 (by omega) path
    rw [h30] at this
    exact this
  · have := fib_eq_nat_fib sched 35 (by omega) path
    rw [h35] at this
    exact this
  · have := fib_eq_nat_fib sched 40 (by omega) path
    rw [h40] at this
    exact this

theorem fib_correct_witness :
    (42 ≤ 46) ∧ fib (fun p => p.length % 2 = 0) [] (42 : Nat) = some (Nat.fib 42 : Int) ∧
      tmc.fib 42 = Nat.fib 42 :=
  have h := fib_correct 42 (by decide) (fun p => p.length % 2 = 0) []
  ⟨by decide, h.1, h.2.2.1⟩

/-- C20: for every `n` with `0 ≤ n ≤ 46` the libfork `fib` in `int`
arithmetic returns a value, so no intermediate sum overflows, and the tmc
`fib` in `size_t` narrowed to `int` gives the same value; every benchmark
input (30, 35, 40, 42) is in that range; and 47 is the first input whose
result does not fit in a 32-bit signed `int`. -/
theorem fib_int_and_size_t_agree (n : Nat) (h : n ≤ 46) (sched : schedule)
    (path : List Bool) :
    (∃ v : Int, fib sched path n = some v ∧ to_int (tmc.fib n) = v) ∧
      (∀ x ∈ fib_benchmark_inputs, x ≤ 46) ∧
      (∀ m : Nat, m < 47 → (Nat.fib m : Int) ≤ INT_MAX) ∧
      ¬ ((Nat.fib 47 : Int) ≤ INT_MAX) ∧
      fib sched path 47 = none ∧
      to_int (tmc.fib 47) ≠ (Nat.fib 47 : Int) := by
  refine ⟨⟨Nat.fib n, fib_eq_nat_fib sched n h path, ?_⟩, by decide, ?_, ?_,
    fib_47_overflows sched path, ?_⟩
  · rw [tmc_fib_eq_nat_fib n (by omega)]
    exact to_int_of_le _ (fib_le_int_max n h)
  · intro m hm
    exact fib_le_int_max m (by omega)
  · rw [fib_47_eq]; decide
  · rw [tmc_fib_eq_nat_fib 47 (by omega), fib_47_eq]; decide

theorem fib_int_and_size_t_agree_witness :
    (46 ≤ 46) ∧ ∃ v : Int, fib (fun _ => false) [] (46 : Nat) = some v ∧ to_int (tmc.fib 46) = v :=
  ⟨by decide, (fib_int_and_size_t_agree 46 (by decide) (fun _ => false) []).1⟩

/-! ## Theorems on `for_each` -/

theorem for_each_eq_map {α : Type} (grain : Nat) (hg : 1 ≤ grain) (f : α → α) (fuel : Nat) :
    ∀ v : List α, v.length < fuel → for_each grain f fuel v = some (v.map f) := by
  induction fuel with
  | zero => intro v h; omega
  | succ fuel ih =>
    intro v h
    rw [for_each]
    by_cases hl : v.length ≤ grain
    · simp [hl]
    · simp only [hl, if_false]
      have h2 : 2 ≤ v.length := by omega
      have hd : v.length / 2 < v.length := Nat.div_lt_self (by omega) (by omega)
      have hd1 : 1 ≤ v.length / 2 := by omega
      rw [ih (v.take (v.length / 2)) (by rw [List.length_take]; omega),
        ih (v.drop (v.length / 2)) (by rw [List.length_drop]; omega)]
      simp only [Option.some_bind, Option.map_some', ← List.map_append, List.take_append_drop]

theorem sync_wait_for_each_eq_map {α : Type} (grain : Nat) (hg : 1 ≤ grain) (f : α → α)
    (v : List α) : sync_wait_for_each grain f v = some (v.map f) :=
  for_each_eq_map grain hg f (v.length + 1) v (Nat.lt_succ_self _)

theorem for_each_all_eq {α : Type} (f : α → α) (grains : List Nat)
    (hg : ∀ g ∈ grains, 1 ≤ g) :
    ∀ v : List α, for_each_all f grains v = some (v.map (f^[grains.length])) := by
  induction grains with
  | nil => intro v; simp [for_each_all]
  | cons g gs ih =>
    intro v
    rw [for_each_all, sync_wait_for_each_eq_map g (hg g (List.mem_cons_self _ _)) f v]
    simp only [Option.some_bind]
    rw [ih (fun x hx => hg x (List.mem_cons_of_mem _ hx))]
    simp [List.map_map, Function.iterate_succ]

theorem iterate_add_one (k : Nat) (x : Int) : (fun i : Int => i + 1)^[k] x = x + k := by
  induction k generalizing x with
  | zero => simp
  | succ k ih =>
    rw [Function.iterate_succ, Function.comp, ih]
    push_cast
    ring

/-- C15: for every sequence and every grain size `g ≥ 1` one application of
`for_each` through the runtime returns and has applied the function exactly
once to every element; starting from `v[i] = i` for `i < 10000`, after `k`
successive applications with any grain sizes `≥ 1` (1, 100, 300 and 20000 in
the test) `v[i] = i + k` for every `i`. -/
theorem for_each_applies_once {α : Type} (grain : Nat) (f : α → α) (v : List α)
    (grains : List Nat) (hg : 1 ≤ grain) (hgs : ∀ g ∈ grains, 1 ≤ g) :
    sync_wait_for_each grain f v = some (v.map f) ∧
      (∀ fuel, v.length < fuel → for_each grain f fuel v = some (v.map f)) ∧
      (∃ w, for_each_all (fun i : Int => i + 1) grains test_sequence = some w ∧
        w.length = 10000 ∧
        ∀ i, i < 10000 → w.get? i = some ((i : Int) + grains.length)) ∧
      (∀ g ∈ test_grains, 1 ≤ g) := by
  refine ⟨sync_wait_for_each_eq_map grain hg f v, fun fuel h => for_each_eq_map grain hg f fuel v h,
    ?_, by decide⟩
  refine ⟨_, for_each_all_eq _ grains hgs test_sequence, ?_, ?_⟩
  · simp [test_sequence]
  · intro i hi
    simp only [test_sequence, List.map_map, List.get?_eq_getElem?, List.getElem?_map,
      List.getElem?_range hi, Option.map_some', Function.comp, iterate_add_one]

theorem for_each_applies_once_witness :
    ((1 ≤ 300) ∧ ∀ g ∈ test_grains, 1 ≤ g) ∧
      sync_wait_for_each 300 (fun i : Int => i + 1) [0, 1, 2, 3] = some [1, 2, 3, 4] ∧
      ∃ w, for_each_all (fun i : Int => i + 1) test_grains test_sequence = some w ∧
        w.length = 10000 ∧
        ∀ i, i < 10000 → w.get? i = some ((i : Int) + test_grains.length) :=
  have h := for_each_applies_once 300 (fun i : Int => i + 1) [0, 1, 2, 3] test_grains
    (by decide) (by decide)
  ⟨⟨by decide, by decide⟩, h.1, h.2.2.1⟩

/-! ## Theorems on the unbalanced tree search -/

theorem spawn_state_of_pos {S : Type} (t : uts_tree S) (parentState init : S) (i : Int)
    (h : 0 < t.computeGranularity) : spawn_state t parentState init i = t.rng_spawn parentState i := by
  unfold spawn_state
  obtain ⟨m, hm⟩ : ∃ m, t.computeGranularity.toNat = m + 1 :=
    ⟨t.computeGranularity.toNat - 1, by omega⟩
  rw [hm, List.range_succ, List.foldl_append]
  rfl

theorem all_some_map_map {α β γ : Type} (f : α → Option β) (g : β → γ) (l : List α) :
    all_some (l.map (fun x => (f x).map g)) = (all_some (l.map f)).map (List.map g) := by
  induction l with
  | nil => rfl
  | cons x xs ih =>
    simp only [List.map_cons]
    cases hx : f x with
    | none => simp [all_some]
    | some a =>
      simp only [Option.map_some', all_some, ih]
      cases all_some (xs.map f) <;> simp

theorem all_some_forall {α β : Type} (f : α → Option β) (P : β → Prop) (l : List α)
    (r : List β) (h : all_some (l.map f) = some r) (hP : ∀ x ∈ l, ∀ y, f x = some y → P y) :
    ∀ y ∈ r, P y := by
  induction l generalizing r with
  | nil =>
    simp only [List.map_nil, all_some, Option.some.injEq] at h
    subst h
    intro y hy
    cases hy
  | cons x xs ih =>
    simp only [List.map_cons] at h
    cases hx : f x with
    | none => rw [hx] at h; simp [all_some] at h
    | some a =>
      rw [hx] at h
      simp only [all_some] at h
      cases hxs : all_some (xs.map f) with
      | none => rw [hxs] at h; simp at h
      | some as =>
        rw [hxs] at h
        simp only [Option.map_some', Option.some.injEq] at h
        subst h
        intro y hy
        rcases List.mem_cons.1 hy with rfl | hy
        · exact hP x (List.mem_cons_self _ _) _ hx
        · exact ih as hxs (fun z hz => hP z (List.mem_cons_of_mem _ hz)) y hy

theorem foldl_accumulate (rs : List result) (r : result) :
    (rs.foldl accumulate r).maxdepth = (rs.map (fun x => x.maxdepth)).foldl max r.maxdepth ∧
      (rs.foldl accumulate r).size = r.size + (rs.map (fun x => x.size)).sum ∧
      (rs.foldl accumulate r).leaves = r.leaves + (rs.map (fun x => x.leaves)).sum := by
  induction rs generalizing r with
  | nil => simp
  | cons x xs ih =>
    obtain ⟨h1, h2, h3⟩ := ih (accumulate r x)
    simp only [List.foldl_cons, List.map_cons, List.sum_cons]
    refine ⟨h1, ?_, ?_⟩
    · rw [h2]; simp only [accumulate]; omega
    · rw [h3]; simp only [accumulate]; omega

theorem foldl_max_spec (l : List Int) (a : Int) :
    a ≤ l.foldl max a ∧ (∀ x ∈ l, x ≤ l.foldl max a) ∧ (l.foldl max a = a ∨ l.foldl max a ∈ l) := by
  induction l generalizing a with
  | nil => simp
  | cons b l ih =>
    obtain ⟨h1, h2, h3⟩ := ih (max a b)
    simp only [List.foldl_cons, List.mem_cons]
    refine ⟨le_trans (le_max_left a b) h1, ?_, ?_⟩
    · intro x hx
      rcases hx with rfl | hx
      · exact le_trans (le_max_right a x) h1
      · exact h2 x hx
    · rcases h3 with h3 | h3
      · rcases max_choice a b with h | h
        · left; rw [h3, h]
        · right; left; rw [h3, h]
      · right; right; exact h3

theorem foldl_max_le (l : List Int) (a b : Int) (ha : a ≤ b) (hl : ∀ x ∈ l, x ≤ b) :
    l.foldl max a ≤ b := by
  rcases (foldl_max_spec l a).2.2 with h | h
  · rw [h]; exact ha
  · exact hl _ h

theorem uts_nodes_head {S : Type} (t : uts_tree S) (init : S) (fuel : Nat) (node : Node S)
    (depth : Int) (ns : List (Node S × Int)) (h : uts_nodes t init fuel node depth = some ns) :
    ∃ rest, ns = (node, depth) :: rest := by
  cases fuel with
  | zero => simp [uts_nodes] at h
  | succ fuel =>
    simp only [uts_nodes, Option.map_eq_some'] at h
    obtain ⟨below, _, rfl⟩ := h
    exact ⟨_, rfl⟩

theorem sum_size_tree_result {S : Type} (t : uts_tree S) (d : Int)
    (below : List (List (Node S × Int))) :
    ((below.map (tree_result t d)).map (fun x => x.size)).sum = (below.flatten.length : Int) := by
  induction below with
  | nil => simp
  | cons l ls ih =>
    simp only [List.map_cons, List.sum_cons, ih, List.flatten_cons, List.length_append,
      tree_result]
    push_cast
    ring

theorem sum_leaves_tree_result {S : Type} (t : uts_tree S) (d : Int)
    (below : List (List (Node S × Int))) :
    ((below.map (tree_result t d)).map (fun x => x.leaves)).sum
      = ((below.flatten.filter (fun x => decide (t.uts_numChildren x.1 ≤ 0))).length : Int) := by
  induction below with
  | nil => simp
  | cons l ls ih =>
    simp only [List.map_cons, List.sum_cons, ih, List.flatten_cons, List.filter_append,
      List.length_append, tree_result]
    push_cast
    ring

theorem maxdepth_children {S : Type} (t : uts_tree S) (depth : Int)
    (below : List (List (Node S × Int)))
    (hhead : ∀ l ∈ below, ∃ c rest, l = (c, depth + 1) :: rest) :
    ((below.map (tree_result t (depth + 1))).map (fun x => x.maxdepth)).foldl max depth
      = ((depth :: below.flatten.map (fun x => x.2))).foldl max depth := by
  apply le_antisymm
  · apply foldl_max_le
    · exact (foldl_max_spec _ _).1
    · intro x hx
      simp only [List.map_map, List.mem_map, Function.comp] at hx
      obtain ⟨l, hl, rfl⟩ := hx
      obtain ⟨c, rest, hc⟩ := hhead l hl
      have hsub : ∀ z ∈ l.map (fun x => x.2),
          z ≤ ((depth :: below.flatten.map (fun x => x.2))).foldl max depth := by
        intro z hz
        apply (foldl_max_spec _ _).2.1
        simp only [List.mem_map] at hz
        obtain ⟨y, hy, rfl⟩ := hz
        exact List.mem_cons_of_mem _
          (List.mem_map.2 ⟨y, List.mem_flatten.2 ⟨l, hl, hy⟩, rfl⟩)
      simp only [tree_result]
      apply foldl_max_le
      · apply hsub
        rw [hc]
        simp
      · exact hsub
  · apply foldl_max_le
    · exact (foldl_max_spec _ _).1
    · intro x hx
      rcases List.mem_cons.1 hx with rfl | hx
      · exact (foldl_max_spec _ _).1
      · simp only [List.mem_map, List.mem_flatten] at hx
        obtain ⟨y, ⟨l, hl, hy⟩, rfl⟩ := hx
        have h1 : y.2 ≤ (tree_result t (depth + 1) l).maxdepth := by
          simp only [tree_result]
          exact (foldl_max_spec _ _).2.1 _ (List.mem_map.2 ⟨y, hy, rfl⟩)
        refine le_trans h1 ((foldl_max_spec _ _).2.1 _ ?_)
        simp only [List.map_map, List.mem_map, Function.comp]
        exact ⟨l, hl, rfl⟩

theorem accumulate_children {S : Type} (t : uts_tree S) (node : Node S) (depth : Int)
    (hn : t.uts_numChildren node > 0) (below : List (List (Node S × Int)))
    (hhead : ∀ l ∈ below, ∃ c rest, l = (c, depth + 1) :: rest) :
    (below.map (tree_result t (depth + 1))).foldl accumulate
        { maxdepth := depth, size := 1, leaves := 0 }
      = tree_result t depth ((node, depth) :: below.flatten) := by
  obtain ⟨h1, h2, h3⟩ := foldl_accumulate (below.map (tree_result t (depth + 1)))
    { maxdepth := depth, size := 1, leaves := 0 }
  have hleaf : decide (t.uts_numChildren node ≤ 0) = false := by
    simp only [decide_eq_false_iff_not]; omega
  have e1 := maxdepth_children t depth below hhead
  have e2 := sum_size_tree_result t (depth + 1) below
  have e3 := sum_leaves_tree_result t (depth + 1) below
  cases hr : (below.map (tree_result t (depth + 1))).foldl accumulate
    { maxdepth := depth, size := 1, leaves := 0 } with
  | mk m s l =>
    rw [hr] at h1 h2 h3
    simp only at h1 h2 h3
    simp only [tree_result, List.map_cons, List.length_cons, List.filter_cons, hleaf,
      result.mk.injEq]
    refine ⟨?_, ?_, ?_⟩
    · rw [h1, e1]
    · rw [h2, e2]; push_cast; ring
    · rw [h3, e3]; simp

theorem uts_eq_tree_result {S : Type} (t : uts_tree S) (indeterminate : S) (fuel : Nat) :
    ∀ (IsRoot : Bool) (parentState : S) (depth myIdx myType : Int),
      uts t indeterminate fuel IsRoot parentState depth myIdx myType
        = (uts_nodes t indeterminate fuel
            (if IsRoot then t.root
             else uts_self t indeterminate parentState depth myIdx myType) depth).map
            (tree_result t depth) := by
  induction fuel with
  | zero => intro _ _ _ _ _; rfl
  | succ fuel ih =>
    intro IsRoot parentState depth myIdx myType
    generalize hself : (if IsRoot then t.root
      else uts_self t indeterminate parentState depth myIdx myType) = self
    simp only [uts, hself, uts_nodes]
    by_cases hn : t.uts_numChildren self > 0
    · simp only [hn, if_true, spawn_many]
      have hfun : (fun i : Nat => uts t indeterminate fuel false self.state (depth + 1) (i : Int)
            (t.uts_childType self))
          = (fun i : Nat => (uts_nodes t indeterminate fuel
              (uts_child t indeterminate self depth (i : Int)) (depth + 1)).map
              (tree_result t (depth + 1))) := by
        funext i
        rw [ih false self.state (depth + 1) i (t.uts_childType self)]
        rfl
      rw [hfun, all_some_map_map]
      cases hb : all_some ((List.range (t.uts_numChildren self).toNat).map
          (fun i : Nat => uts_nodes t indeterminate fuel
            (uts_child t indeterminate self depth (i : Int)) (depth + 1))) with
      | none => rfl
      | some below =>
        simp only [Option.map_some', Option.some.injEq]
        apply accumulate_children t self depth hn below
        refine all_some_forall _ (fun l => ∃ c rest, l = (c, depth + 1) :: rest) _ below hb ?_
        intro i _ y hy
        obtain ⟨rest, hrest⟩ := uts_nodes_head t indeterminate fuel _ _ y hy
        exact ⟨_, rest, hrest⟩
    · have h0 : (t.uts_numChildren self).toNat = 0 := by omega
      have hleaf : decide (t.uts_numChildren self ≤ 0) = true := by
        simp only [decide_eq_true_eq]; omega
      simp [hn, h0, all_some, tree_result, hleaf]

theorem all_some_congr {α β : Type} (f g : α → Option β) (l : List α) (r : List β)
    (h : all_some (l.map f) = some r) (hfg : ∀ x ∈ l, ∀ y, f x = some y → g x = some y) :
    all_some (l.map g) = some r := by
  induction l generalizing r with
  | nil => exact h
  | cons x xs ih =>
    simp only [List.map_cons] at h ⊢
    cases hx : f x with
    | none => rw [hx] at h; simp [all_some] at h
    | some a =>
      rw [hx] at h
      simp only [all_some] at h
      cases hxs : all_some (xs.map f) with
      | none => rw [hxs] at h; simp at h
      | some as =>
        rw [hxs] at h
        rw [hfg x (List.mem_cons_self _ _) a hx]
        simp only [all_some, ih as hxs (fun z hz => hfg z (List.mem_cons_of_mem _ hz))]
        exact h

theorem uts_nodes_succ {S : Type} (t : uts_tree S) (init : S) (fuel : Nat) :
    ∀ (node : Node S) (depth : Int) (ns : List (Node S × Int)),
      uts_nodes t init fuel node depth = some ns →
      uts_nodes t init (fuel + 1) node depth = some ns := by
  induction fuel with
  | zero => intro _ _ _ h; simp [uts_nodes] at h
  | succ fuel ih =>
    intro node depth ns h
    rw [uts_nodes] at h ⊢
    simp only [Option.map_eq_some'] at h ⊢
    obtain ⟨below, hb, rfl⟩ := h
    refine ⟨below, ?_, rfl⟩
    exact all_some_congr _ _ _ below hb (fun i _ y hy => ih _ _ y hy)

theorem uts_nodes_add {S : Type} (t : uts_tree S) (init : S) (fuel more : Nat) (node : Node S)
    (depth : Int) (ns : List (Node S × Int)) (h : uts_nodes t init fuel node depth = some ns) :
    uts_nodes t init (fuel + more) node depth = some ns := by
  induction more with
  | zero => exact h
  | succ more ih => exact uts_nodes_succ t init (fuel + more) node depth ns ih

theorem accumulate_right_comm (r x y : result) :
    accumulate (accumulate r x) y = accumulate (accumulate r y) x := by
  simp only [accumulate, result.mk.injEq]
  refine ⟨?_, by omega, by omega⟩
  rw [max_assoc, max_comm x.maxdepth, ← max_assoc]

theorem uts_eq_uts_alloc_at {S : Type} (t : uts_tree S) (indeterminate zero : S)
    (hcg : 0 < t.computeGranularity) (fuel : Nat) :
    ∀ (IsRoot : Bool) (parentState : S) (depth myIdx myType : Int),
      (if IsRoot then t.root
        else uts_self t indeterminate parentState depth myIdx myType).height = depth →
      uts t indeterminate fuel IsRoot parentState depth myIdx myType
        = uts_alloc t zero fuel depth
            (if IsRoot then t.root
             else uts_self t indeterminate parentState depth myIdx myType) := by
  induction fuel with
  | zero => intro _ _ _ _ _ _; rfl
  | succ fuel ih =>
    intro IsRoot parentState depth myIdx myType
    generalize hself : (if IsRoot then t.root
      else uts_self t indeterminate parentState depth myIdx myType) = self
    intro hh
    simp only [uts, uts_alloc, hself]
    by_cases hn : t.uts_numChildren self > 0
    · simp only [hn, if_true]
      congr 1
      unfold spawn_many
      congr 2
      funext i
      have := ih false self.state (depth + 1) i (t.uts_childType self) rfl
      simp only [Bool.false_eq_true, if_false] at this
      show uts t indeterminate fuel false self.state (depth + 1) (i : Int) (t.uts_childType self)
        = uts_alloc t zero fuel (depth + 1) (alloc_child t zero self (i : Int))
      rw [this]
      congr 1
      simp only [uts_self, alloc_child, hh, spawn_state_of_pos t _ _ _ hcg]
    · simp only [hn, if_false]

theorem tree_result_maxdepth {S : Type} (t : uts_tree S) (node : Node S) (depth : Int)
    (rest : List (Node S × Int)) :
    (∀ x ∈ (node, depth) :: rest, x.2 ≤ (tree_result t depth ((node, depth) :: rest)).maxdepth) ∧
      ∃ x ∈ (node, depth) :: rest, x.2 = (tree_result t depth ((node, depth) :: rest)).maxdepth := by
  obtain ⟨_, h2, h3⟩ := foldl_max_spec ((((node, depth) :: rest)).map (fun x => x.2)) depth
  constructor
  · intro x hx
    exact h2 _ (List.mem_map.2 ⟨x, hx, rfl⟩)
  · rcases h3 with h3 | h3
    · exact ⟨(node, depth), List.mem_cons_self _ _, h3.symm⟩
    · obtain ⟨x, hx, hxe⟩ := List.mem_map.1 h3
      exact ⟨x, hx, hxe⟩

/-- C16: when the tree below the root is finite (it unfolds to the list
`nodes` within the fuel), `uts` returns, for this and any larger fuel and
whatever its other arguments, the statistics of that tree: `size` is the
number of nodes, `leaves` the number of nodes without children, `maxdepth`
the greatest depth of a node; and the accumulation over the results of the
children gives the same result in whatever order it takes them. -/
theorem uts_result_of_tree {S : Type} (t : uts_tree S) (indeterminate parentState : S)
    (myIdx myType : Int) (fuel : Nat) (nodes : List (Node S × Int))
    (h : uts_nodes t indeterminate fuel t.root 0 = some nodes) :
    (∀ more, uts t indeterminate (fuel + more) true parentState 0 myIdx myType
        = some (tree_result t 0 nodes)) ∧
      (tree_result t 0 nodes).size = nodes.length ∧
      (tree_result t 0 nodes).leaves
        = (nodes.filter (fun x => decide (t.uts_numChildren x.1 ≤ 0))).length ∧
      (∀ x ∈ nodes, x.2 ≤ (tree_result t 0 nodes).maxdepth) ∧
      (∃ x ∈ nodes, x.2 = (tree_result t 0 nodes).maxdepth) ∧
      (∀ (r : result) (results completed : List result), results.Perm completed →
        results.foldl accumulate r = completed.foldl accumulate r) := by
  obtain ⟨rest, rfl⟩ := uts_nodes_head t indeterminate fuel _ _ nodes h
  refine ⟨?_, rfl, rfl, (tree_result_maxdepth t t.root 0 rest).1,
    (tree_result_maxdepth t t.root 0 rest).2, ?_⟩
  · intro more
    have := uts_eq_tree_result t indeterminate (fuel + more) true parentState 0 myIdx myType
    simp only [if_true] at this
    rw [this, uts_nodes_add t indeterminate fuel more _ _ _ h]
    rfl
  · intro r results completed hp
    exact List.Perm.foldl_eq' hp (fun x _ y _ z => accumulate_right_comm z x y) r

theorem uts_result_of_tree_witness :
    uts_nodes small_tree 99 2 small_tree.root 0
        = some [(⟨0, 0, 0⟩, 0), (⟨0, 1, 1⟩, 1), (⟨0, 1, 2⟩, 1)] ∧
      uts small_tree 99 (2 + 0) true 7 0 0 0 = some ⟨1, 3, 2⟩ :=
  ⟨rfl, (uts_result_of_tree small_tree 99 7 0 0 2
    [(⟨0, 0, 0⟩, 0), (⟨0, 1, 1⟩, 1), (⟨0, 1, 2⟩, 1)] rfl).1 0⟩

/-- C19: when `computeGranularity` is positive and the root node has height
0, `uts<true>(nullptr, 0, 0, 0)` and `uts_alloc(0, &root)` return the same
result for every fuel, and they return the statistics of the tree when it is
finite: the node that a `uts<false>` task builds for itself from the state of
its parent, `depth + 1`, the index `i` and the child type is the node `cs[i]`
that `uts_alloc` builds, as long as the height of the parent is `depth`. -/
theorem uts_eq_uts_alloc {S : Type} (t : uts_tree S) (indeterminate zero parentState : S)
    (myIdx myType : Int) (fuel : Nat) (hcg : 0 < t.computeGranularity)
    (hroot : t.root.height = 0) :
    uts t indeterminate fuel true parentState 0 myIdx myType = uts_alloc t zero fuel 0 t.root ∧
      (∀ (parent : Node S) (depth i : Int), parent.height = depth →
        uts_self t indeterminate parent.state (depth + 1) i (t.uts_childType parent)
          = alloc_child t zero parent i) ∧
      (∀ nodes, uts_nodes t indeterminate fuel t.root 0 = some nodes →
        uts_alloc t zero fuel 0 t.root = some (tree_result t 0 nodes)) := by
  have hmain := uts_eq_uts_alloc_at t indeterminate zero hcg fuel true parentState 0 myIdx myType
  simp only [if_true] at hmain
  refine ⟨hmain hroot, ?_, ?_⟩
  · intro parent depth i hh
    simp only [uts_self, alloc_child, hh, spawn_state_of_pos t _ _ _ hcg]
  · intro nodes hnodes
    rw [← hmain hroot]
    have := uts_eq_tree_result t indeterminate fuel true parentState 0 myIdx myType
    simp only [if_true] at this
    rw [this, hnodes]
    rfl

theorem uts_eq_uts_alloc_witness :
    ((0 : Int) < small_tree.computeGranularity ∧ small_tree.root.height = 0) ∧
      uts small_tree 99 2 true 7 0 0 0 = uts_alloc small_tree 0 2 0 small_tree.root ∧
      uts_alloc small_tree 0 2 0 small_tree.root = some ⟨1, 3, 2⟩ :=
  ⟨⟨by decide, rfl⟩, (uts_eq_uts_alloc small_tree 99 0 7 0 0 2 (by decide) rfl).1, by decide⟩

/-! ## Theorems on the n-queens benchmark -/

theorem getD_append_left (p : List Nat) (i c : Nat) (h : c < p.length) :
    (p ++ [i]).getD c 0 = p.getD c 0 := by
  simp [List.getD, List.getElem?_append_left h]

theorem getD_append_last (p : List Nat) (i : Nat) : (p ++ [i]).getD p.length 0 = i := by
  simp [List.getD]

theorem safe_iff (p : List Nat) (i : Nat) :
    safe p i = true ↔ ∀ c < p.length,
      p.getD c 0 ≠ i ∧ p.getD c 0 + (p.length - c) ≠ i ∧ i + (p.length - c) ≠ p.getD c 0 := by
  simp only [safe, List.all_eq_true, List.mem_range, decide_eq_true_eq]

theorem non_attacking_append (p : List Nat) (i : Nat) :
    non_attacking (p ++ [i]) ↔ non_attacking p ∧ safe p i = true := by
  rw [safe_iff]
  unfold non_attacking
  simp only [List.length_append, List.length_singleton]
  constructor
  · intro h
    constructor
    · intro c2 h2 c1 h1
      have := h c2 (by omega) c1 h1
      rwa [getD_append_left p i c1 (by omega), getD_append_left p i c2 h2] at this
    · intro c hc
      have := h p.length (by omega) c hc
      rw [getD_append_left p i c hc, getD_append_last] at this
      exact this
  · rintro ⟨h1, h2⟩ c2 hc2 c1 hc1
    by_cases hlast : c2 = p.length
    · subst hlast
      rw [getD_append_left p i c1 hc1, getD_append_last]
      exact h2 c1 hc1
    · rw [getD_append_left p i c1 (by omega), getD_append_left p i c2 (by omega)]
      exact h1 c2 (by omega) c1 hc1

theorem non_attacking_of_append (p e : List Nat) (h : non_attacking (p ++ e)) : non_attacking p := by
  intro c2 h2 c1 h1
  have := h c2 (by rw [List.length_append]; omega) c1 h1
  simpa [List.getD, List.getElem?_append_left h2,
    List.getElem?_append_left (Nat.lt_trans h1 h2)] using this

theorem completions_zero (N : Nat) (p : List Nat) :
    completions N 0 p = if non_attacking p then 1 else 0 := by
  unfold completions boards
  by_cases h : non_attacking p <;> simp [h]

theorem completions_succ (N k : Nat) (p : List Nat) :
    completions N (k + 1) p = ((List.range N).map (fun i => completions N k (p ++ [i]))).sum := by
  unfold completions
  rw [boards, List.filter_flatten, List.length_flatten]
  simp only [List.map_map]
  congr 1
  apply List.map_congr_left
  intro i _
  simp only [Function.comp, List.filter_map, List.length_map]
  congr 2
  funext e
  simp [Function.comp, List.append_assoc]

theorem completions_of_attacking (N k : Nat) (p : List Nat) (h : ¬ non_attacking p) :
    completions N k p = 0 := by
  unfold completions
  rw [List.length_eq_zero, List.filter_eq_nil_iff]
  intro e _
  simp only [decide_eq_true_eq]
  exact fun he => h (non_attacking_of_append p e he)

theorem sum_filter_of_zero {α : Type} (l : List α) (P : α → Bool) (f : α → Nat)
    (h : ∀ x ∈ l, P x = false → f x = 0) : ((l.filter P).map f).sum = (l.map f).sum := by
  induction l with
  | nil => rfl
  | cons x xs ih =>
    have ih1 := ih (fun y hy => h y (List.mem_cons_of_mem _ hy))
    by_cases hx : P x = true
    · simp [List.filter_cons, hx, ih1]
    · have hx0 : P x = false := by simpa using hx
      simp [List.filter_cons, hx0, ih1, h x (List.mem_cons_self _ _) hx0]

theorem solutions_eq_completions (N k : Nat) :
    ∀ p : List Nat, non_attacking p → solutions N k p = completions N k p := by
  induction k with
  | zero =>
    intro p hp
    rw [completions_zero, if_pos hp]
    rfl
  | succ k ih =>
    intro p hp
    rw [solutions, completions_succ]
    rw [← sum_filter_of_zero (List.range N) (fun i => safe p i)
      (fun i => completions N k (p ++ [i]))]
    · congr 1
      apply List.map_congr_left
      intro i hi
      have hs : safe p i = true := (List.mem_filter.1 hi).2
      exact ih (p ++ [i]) ((non_attacking_append p i).2 ⟨hp, hs⟩)
    · intro i _ hs
      apply completions_of_attacking
      rw [non_attacking_append]
      simp [hs]

theorem solutions_eq_placements (N : Nat) : solutions N N [] = (placements N).length := by
  rw [solutions_eq_completions N N [] (by intro c2 h2; simp at h2)]
  simp [completions, placements]

theorem queens_ok_iff (n : Nat) (a : Nat → Int) :
    queens_ok n a = true ↔ ∀ c2 < n, ∀ c1 < c2,
      a c2 ≠ a c1 ∧ a c2 ≠ a c1 - ((c2 : Int) - (c1 : Int)) ∧
        a c2 ≠ a c1 + ((c2 : Int) - (c1 : Int)) := by
  simp only [queens_ok, List.all_eq_true, List.mem_range, decide_eq_true_eq]
  constructor
  · intro h c2 h2 c1 h1
    exact h c1 (by omega) c2 h2 h1
  · intro h i _ j hj hij
    exact h j hj i hij

theorem queens_ok_of_holds (a : Nat → Int) (p : List Nat) (h : holds a p) :
    queens_ok p.length a = true ↔ non_attacking p := by
  rw [queens_ok_iff]
  unfold non_attacking
  constructor
  · intro hq c2 h2 c1 h1
    have := hq c2 h2 c1 h1
    rw [h c2 h2, h c1 (by omega)] at this
    omega
  · intro hn c2 h2 c1 h1
    have := hn c2 h2 c1 h1
    rw [h c2 h2, h c1 (by omega)]
    omega

theorem to_char_of_lt (char_signed : Bool) (i : Nat)
    (h : (i : Int) ≤ CHAR_MAX char_signed) : to_char char_signed (i : Int) = (i : Int) := by
  unfold to_char
  unfold CHAR_MAX at h
  cases char_signed
  · simp only [Bool.false_eq_true, if_false] at h ⊢
    omega
  · simp only [if_true] at h ⊢
    omega

theorem holds_buf (char_signed : Bool) (N : Nat) (hN : (N : Int) ≤ CHAR_MAX char_signed + 1)
    (indeterminate : Int) (a : Nat → Int) (p : List Nat)
    (h : holds a p) (i : Nat) (hi : i < N) :
    holds (buf char_signed indeterminate p.length a i) (p ++ [i]) := by
  intro c hc
  simp only [List.length_append, List.length_singleton] at hc
  unfold buf
  by_cases hlt : c < p.length
  · simp only [hlt, if_true]
    rw [getD_append_left p i c hlt]
    exact h c hlt
  · have hce : c = p.length := by omega
    subst hce
    simp only [Nat.lt_irrefl, if_false, if_true]
    rw [getD_append_last, to_char_of_lt char_signed i (by omega)]

theorem all_some_map_eq {α β : Type} (f : α → Option β) (g : α → β) (l : List α)
    (h : ∀ x ∈ l, f x = some (g x)) : all_some (l.map f) = some (l.map g) := by
  induction l with
  | nil => rfl
  | cons x xs ih =>
    simp only [List.map_cons, h x (List.mem_cons_self _ _), all_some,
      ih (fun y hy => h y (List.mem_cons_of_mem _ hy)), Option.map_some']

theorem foldl_add_int (l : List Nat) (r : Nat) (h : ((r + l.sum : Nat) : Int) ≤ INT_MAX) :
    (l.map (fun x : Nat => (x : Int))).foldl
        (fun ret part => ret.bind fun r => add_int r part) (some (r : Int))
      = some ((r + l.sum : Nat) : Int) := by
  induction l generalizing r with
  | nil => simp
  | cons x xs ih =>
    simp only [List.map_cons, List.foldl_cons, Option.some_bind, List.sum_cons] at h ⊢
    have hx : add_int (r : Int) (x : Int) = some ((r + x : Nat) : Int) := by
      have hle : ((r + x : Nat) : Int) ≤ ((r + (x + xs.sum) : Nat) : Int) :=
        Int.ofNat_le.2 (by omega)
      unfold add_int
      unfold INT_MAX at h
      rw [if_pos]
      · push_cast; rfl
      · constructor
        · unfold INT_MIN; omega
        · unfold INT_MAX; push_cast at hle h ⊢; omega
    rw [hx, ih (r + x) (by rw [Nat.add_assoc]; exact h), Nat.add_assoc]

theorem sum_parts_of_le (l : List Nat) (h : ((l.sum : Nat) : Int) ≤ INT_MAX) :
    sum_parts (l.map (fun x : Nat => (x : Int))) = some ((l.sum : Nat) : Int) := by
  have := foldl_add_int l 0 (by simpa using h)
  simpa [sum_parts] using this

theorem le_sum_of_mem_map {α : Type} (l : List α) (f : α → Nat) (x : α) (hx : x ∈ l) :
    f x ≤ (l.map f).sum := by
  induction l with
  | nil => cases hx
  | cons y ys ih =>
    simp only [List.map_cons, List.sum_cons]
    rcases List.mem_cons.1 hx with rfl | h
    · omega
    · have := ih h
      omega

theorem nqueens_eq_solutions (char_signed : Bool) (N : Nat)
    (hN : (N : Int) ≤ CHAR_MAX char_signed + 1) (indeterminate : Int) (fuel : Nat) :
    ∀ (j : Nat) (a : Nat → Int) (p : List Nat), holds a p → p.length = j → j ≤ N →
      N - j < fuel → non_attacking p → ((solutions N (N - j) p : Nat) : Int) ≤ INT_MAX →
      nqueens char_signed N indeterminate fuel j a
        = some ((solutions N (N - j) p : Nat) : Int) := by
  induction fuel with
  | zero => intro j a p _ _ _ h; omega
  | succ fuel ih =>
    intro j a p hh hlen hj hfuel hp hfit
    rw [nqueens]
    by_cases hNj : N = j
    · subst hNj
      simp [solutions]
    · simp only [hNj, if_false]
      obtain ⟨k, hk⟩ : ∃ k, N - j = k + 1 := ⟨N - j - 1, by omega⟩
      have hk2 : N - (j + 1) = k := by omega
      rw [hk, solutions] at hfit ⊢
      subst hlen
      have hfilter : (List.range N).filter (fun (i : Nat) => queens_ok (p.length + 1)
            (buf char_signed indeterminate p.length a i))
          = (List.range N).filter (fun i => safe p i) := by
        apply List.filter_congr
        intro i hi
        have hb := holds_buf char_signed N hN indeterminate a p hh i (List.mem_range.1 hi)
        have h1 := queens_ok_of_holds _ (p ++ [i]) hb
        rw [List.length_append, List.length_singleton, non_attacking_append] at h1
        rw [Bool.eq_iff_iff, h1]
        exact ⟨fun h => h.2, fun h => ⟨hp, h⟩⟩
      rw [hfilter]
      rw [all_some_map_eq _ (fun i => ((solutions N k (p ++ [i]) : Nat) : Int))]
      · have hsum := sum_parts_of_le
          (((List.range N).filter (fun i => safe p i)).map (fun i => solutions N k (p ++ [i])))
          hfit
        simp only [List.map_map, Function.comp] at hsum
        simpa using hsum
      · intro i hi
        have hi2 := List.mem_filter.1 hi
        have hb := holds_buf char_signed N hN indeterminate a p hh i (List.mem_range.1 hi2.1)
        have := ih (p.length + 1) _ (p ++ [i]) hb (by simp) (by
            have := List.mem_range.1 hi2.1
            omega) (by omega)
          ((non_attacking_append p i).2 ⟨hp, hi2.2⟩)
        rw [hk2] at this
        apply this
        have hle : solutions N k (p ++ [i]) ≤ _ :=
          le_sum_of_mem_map _ (fun i => solutions N k (p ++ [i])) i hi
        exact le_trans (Int.ofNat_le.2 hle) hfit

theorem land_pred_spec (a : Nat) (ha : a ≠ 0) :
    ∃ k, a.testBit k = true ∧ (∀ i < k, a.testBit i = false) ∧
      (∀ i, (a &&& (a - 1)).testBit i = (a.testBit i && decide (i ≠ k))) ∧
      a - (a &&& (a - 1)) = 2 ^ k := by
  induction a using Nat.strong_induction_on with
  | _ a ih =>
    rcases Nat.even_or_odd' a with ⟨m, rfl | rfl⟩
    · have hm : m ≠ 0 := by omega
      obtain ⟨k, h1, h2, h3, h4⟩ := ih m (by omega) hm
      have hval : 2 * m &&& (2 * m - 1) = 2 * (m &&& (m - 1)) := by
        apply Nat.eq_of_testBit_eq
        intro i
        cases i with
        | zero =>
          simp only [Nat.testBit_and, Nat.testBit_zero]
          have : (2 * m) % 2 = 0 := by omega
          have h' : (2 * (m &&& (m - 1))) % 2 = 0 := by omega
          simp [this, h']
        | succ i =>
          simp only [Nat.testBit_and]
          simp only [Nat.testBit_succ]
          have e1 : 2 * m / 2 = m := by omega
          have e2 : (2 * m - 1) / 2 = m - 1 := by omega
          have e3 : 2 * (m &&& (m - 1)) / 2 = m &&& (m - 1) := by omega
          rw [e1, e2, e3, Nat.testBit_and]
      refine ⟨k + 1, ?_, ?_, ?_, ?_⟩
      · rw [Nat.testBit_succ]
        have e1 : 2 * m / 2 = m := by omega
        rw [e1]; exact h1
      · intro i hi
        cases i with
        | zero =>
          rw [Nat.testBit_zero]
          have : (2 * m) % 2 = 0 := by omega
          simp [this]
        | succ i =>
          rw [Nat.testBit_succ]
          have e1 : 2 * m / 2 = m := by omega
          rw [e1]; exact h2 i (by omega)
      · intro i
        rw [hval]
        cases i with
        | zero =>
          simp only [Nat.testBit_zero]
          have : (2 * m) % 2 = 0 := by omega
          have h' : (2 * (m &&& (m - 1))) % 2 = 0 := by omega
          simp [this, h']
        | succ i =>
          simp only [Nat.testBit_succ]
          have e1 : 2 * m / 2 = m := by omega
          have e3 : 2 * (m &&& (m - 1)) / 2 = m &&& (m - 1) := by omega
          rw [e1, e3, h3 i]
          simp
      · rw [hval, pow_succ]
        omega
    · have hval : (2 * m + 1) &&& (2 * m + 1 - 1) = 2 * m := by
        apply Nat.eq_of_testBit_eq
        intro i
        cases i with
        | zero =>
          simp only [Nat.testBit_and, Nat.testBit_zero]
          have : (2 * m + 1 - 1) % 2 = 0 := by omega
          have h' : (2 * m) % 2 = 0 := by omega
          simp [this, h']
        | succ i =>
          simp only [Nat.testBit_and]
          simp only [Nat.testBit_succ]
          have e1 : (2 * m + 1) / 2 = m := by omega
          have e2 : (2 * m + 1 - 1) / 2 = m := by omega
          have e3 : 2 * m / 2 = m := by omega
          rw [e1, e2, e3, Bool.and_self]
      refine ⟨0, ?_, ?_, ?_, ?_⟩
      · rw [Nat.testBit_zero]
        have : (2 * m + 1) % 2 = 1 := by omega
        simp [this]
      · intro i hi; omega
      · intro i
        rw [hval]
        cases i with
        | zero =>
          simp only [Nat.testBit_zero]
          have h' : (2 * m) % 2 = 0 := by omega
          simp [h']
        | succ i =>
          simp only [Nat.testBit_succ]
          have e1 : (2 * m + 1) / 2 = m := by omega
          have e3 : 2 * m / 2 = m := by omega
          rw [e1, e3]
          simp
      · rw [hval]
        simp

theorem sum_filter_split (f : Nat → Nat) (P Q : Nat → Bool) (k : Nat) (l : List Nat)
    (hl : l.Nodup) (hk : k ∈ l) (hP : P k = true)
    (hQ : ∀ i, Q i = (P i && decide (i ≠ k))) :
    ((l.filter P).map f).sum = f k + ((l.filter Q).map f).sum := by
  induction l with
  | nil => cases hk
  | cons x xs ih =>
    have hx := (List.nodup_cons.1 hl)
    by_cases hxk : x = k
    · subst hxk
      have hQx : Q x = false := by rw [hQ]; simp
      have hrest : xs.filter Q = xs.filter P := by
        apply List.filter_congr
        intro i hi
        rw [hQ]
        have : i ≠ x := fun e => hx.1 (e ▸ hi)
        simp [this]
      rw [List.filter_cons_of_pos hP, List.filter_cons_of_neg (by simp [hQx]), hrest]
      simp
    · have hk2 : k ∈ xs := by
        rcases List.mem_cons.1 hk with e | e
        · exact absurd e.symm hxk
        · exact e
      have hQx : Q x = P x := by rw [hQ]; simp [hxk]
      have := ih hx.2 hk2
      by_cases hPx : P x = true
      · rw [List.filter_cons_of_pos hPx, List.filter_cons_of_pos (by rw [hQx]; exact hPx)]
        simp only [List.map_cons, List.sum_cons, this]
        omega
      · rw [List.filter_cons_of_neg hPx, List.filter_cons_of_neg (by rw [hQx]; exact hPx)]
        exact this

theorem fast_rows_eq (g : Nat → Nat) (N : Nat) :
    ∀ (fuel avail acc lo : Nat), (∀ i, avail.testBit i = true → lo ≤ i ∧ i < N) →
      N ≤ fuel + lo →
      fast_rows g fuel avail acc
        = acc + (((List.range N).filter (fun i => avail.testBit i)).map
            (fun i => g (2 ^ i))).sum := by
  intro fuel
  induction fuel with
  | zero =>
    intro avail acc lo hbits hN
    have h0 : avail = 0 := by
      by_contra hne
      obtain ⟨k, hk, _⟩ := land_pred_spec avail hne
      have := hbits k hk
      omega
    subst h0
    simp [fast_rows]
  | succ fuel ih =>
    intro avail acc lo hbits hN
    rw [fast_rows]
    by_cases h0 : avail = 0
    · subst h0
      simp
    · rw [if_neg h0]
      obtain ⟨k, hk, hlow, hrest, hbit⟩ := land_pred_spec avail h0
      have hkr := hbits k hk
      rw [hbit, ih (avail &&& (avail - 1)) _ (k + 1) (by
          intro i hi
          rw [hrest] at hi
          simp only [Bool.and_eq_true, decide_eq_true_eq] at hi
          have hlo := hbits i hi.1
          have : ¬ i < k := fun hlt => by
            have := hlow i hlt
            rw [hi.1] at this
            cases this
          omega) (by omega)]
      rw [sum_filter_split (fun i => g (2 ^ i)) (fun i => avail.testBit i)
        (fun i => (avail &&& (avail - 1)).testBit i) k (List.range N) (List.nodup_range N)
        (List.mem_range.2 hkr.2) hk hrest]
      omega

theorem exists_lt_append (p : List Nat) (i : Nat) (Q : Nat → Nat → Prop) :
    (∃ c < (p ++ [i]).length, Q c ((p ++ [i]).getD c 0))
      ↔ (∃ c < p.length, Q c (p.getD c 0)) ∨ Q p.length i := by
  constructor
  · rintro ⟨c, hc, hq⟩
    simp only [List.length_append, List.length_singleton] at hc
    by_cases hlt : c < p.length
    · rw [getD_append_left p i c hlt] at hq
      exact Or.inl ⟨c, hlt, hq⟩
    · have hce : c = p.length := by omega
      subst hce
      rw [getD_append_last] at hq
      exact Or.inr hq
  · rintro (⟨c, hc, hq⟩ | hq)
    · refine ⟨c, by simp; omega, ?_⟩
      rw [getD_append_left p i c hc]
      exact hq
    · refine ⟨p.length, by simp, ?_⟩
      rw [getD_append_last]
      exact hq

theorem masks_nil : masks [] 0 0 0 := by
  refine ⟨?_, ?_, ?_⟩ <;> intro i <;> simp

theorem masks_append (p : List Nat) (cols d1 d2 i : Nat) (h : masks p cols d1 d2) :
    masks (p ++ [i]) (cols ||| 2 ^ i) ((d1 ||| 2 ^ i) <<< 1) ((d2 ||| 2 ^ i) >>> 1) := by
  obtain ⟨hc, h1, h2⟩ := h
  refine ⟨?_, ?_, ?_⟩
  · intro r
    rw [exists_lt_append p i (fun _ v => v = r)]
    simp only [Nat.testBit_or, Nat.testBit_two_pow, Bool.or_eq_true, decide_eq_true_eq, hc r]
  · intro r
    rw [exists_lt_append p i (fun c v => v + ((p ++ [i]).length - c) = r)]
    simp only [Nat.testBit_shiftLeft, Nat.testBit_or, Nat.testBit_two_pow, Bool.and_eq_true,
      Bool.or_eq_true, decide_eq_true_eq, h1 (r - 1), List.length_append, List.length_singleton]
    constructor
    · rintro ⟨hr, ⟨c, hc, he⟩ | he⟩
      · exact Or.inl ⟨c, hc, by omega⟩
      · exact Or.inr (by omega)
    · rintro (⟨c, hc, he⟩ | he)
      · exact ⟨by omega, Or.inl ⟨c, hc, by omega⟩⟩
      · exact ⟨by omega, Or.inr (by omega)⟩
  · intro r
    rw [exists_lt_append p i (fun c v => r + ((p ++ [i]).length - c) = v)]
    simp only [Nat.testBit_shiftRight, Nat.testBit_or, Nat.testBit_two_pow,
      Bool.or_eq_true, decide_eq_true_eq, h2 (1 + r), List.length_append, List.length_singleton]
    constructor
    · rintro (⟨c, hc, he⟩ | he)
      · exact Or.inl ⟨c, hc, by omega⟩
      · exact Or.inr (by omega)
    · rintro (⟨c, hc, he⟩ | he)
      · exact Or.inl ⟨c, hc, by omega⟩
      · exact Or.inr (by omega)

theorem avail_testBit (N : Nat) (p : List Nat) (cols d1 d2 : Nat) (h : masks p cols d1 d2)
    (i : Nat) :
    ((2 ^ N - 1) ^^^ ((cols ||| d1 ||| d2) &&& (2 ^ N - 1))).testBit i
      = (decide (i < N) && safe p i) := by
  obtain ⟨hc, h1, h2⟩ := h
  have hs : safe p i = true ↔
      ¬ (cols.testBit i = true ∨ d1.testBit i = true ∨ d2.testBit i = true) := by
    rw [safe_iff, hc, h1, h2]
    constructor
    · rintro hall (⟨c, hlt, he⟩ | ⟨c, hlt, he⟩ | ⟨c, hlt, he⟩)
      · exact (hall c hlt).1 he
      · exact (hall c hlt).2.1 he
      · exact (hall c hlt).2.2 he
    · intro hno c hlt
      exact ⟨fun he => hno (Or.inl ⟨c, hlt, he⟩), fun he => hno (Or.inr (Or.inl ⟨c, hlt, he⟩)),
        fun he => hno (Or.inr (Or.inr ⟨c, hlt, he⟩))⟩
  simp only [Nat.testBit_xor, Nat.testBit_and, Nat.testBit_or, Nat.testBit_two_pow_sub_one]
  cases hcb : cols.testBit i <;> cases h1b : d1.testBit i <;> cases h2b : d2.testBit i <;>
    cases hsb : safe p i <;> simp_all

theorem fast_count_eq_solutions (N : Nat) : ∀ (rem : Nat) (p : List Nat) (cols d1 d2 : Nat),
    masks p cols d1 d2 → fast_count N (2 ^ N - 1) rem cols d1 d2 = solutions N rem p := by
  intro rem
  induction rem with
  | zero => intro p cols d1 d2 _; rfl
  | succ rem ih =>
    intro p cols d1 d2 h
    rw [fast_count, solutions, fast_rows_eq _ N N _ 0 0 (by
      intro i hi
      rw [avail_testBit N p cols d1 d2 h] at hi
      simp only [Bool.and_eq_true, decide_eq_true_eq] at hi
      exact ⟨Nat.zero_le _, hi.1⟩) (by omega), Nat.zero_add]
    have hfilter : (List.range N).filter
          (fun i => ((2 ^ N - 1) ^^^ ((cols ||| d1 ||| d2) &&& (2 ^ N - 1))).testBit i)
        = (List.range N).filter (fun i => safe p i) := by
      apply List.filter_congr
      intro i hi
      rw [avail_testBit N p cols d1 d2 h]
      simp [List.mem_range.1 hi]
    rw [hfilter]
    congr 1
    apply List.map_congr_left
    intro i _
    exact ih (p ++ [i]) _ _ _ (masks_append p cols d1 d2 i h)

theorem fast_count_is_iff (N full rem cols d1 d2 v : Nat) :
    fast_count_is N full rem cols d1 d2 v ↔ fast_count N full rem cols d1 d2 = v := by
  have hrows : ∀ (g : Nat → Nat) (fuel avail acc : Nat),
      (Nat.rec (motive := fun _ => Nat → Nat → Nat) (fun _ acc => acc)
        (fun _ ih2 avail acc =>
          cond (Nat.beq avail 0) acc
            ((fun rest => (fun bit => ih2 rest (Nat.add acc (g bit))) (Nat.sub avail rest))
              (Nat.land avail (Nat.sub avail 1)))) fuel : Nat → Nat → Nat) avail acc
        = fast_rows g fuel avail acc := by
    intro g fuel
    induction fuel with
    | zero => intro avail acc; rfl
    | succ fuel ih =>
      intro avail acc
      rw [fast_rows]
      by_cases h0 : avail = 0
      · subst h0; rfl
      · rw [if_neg h0]
        have hb : Nat.beq avail 0 = false := by
          cases avail with
          | zero => exact absurd rfl h0
          | succ n => rfl
        show cond (Nat.beq avail 0) acc _ = _
        rw [hb]
        exact ih _ _
  have hcount : ∀ (rem cols d1 d2 : Nat),
      (Nat.rec (motive := fun _ => Nat → Nat → Nat → Nat) (fun _ _ _ => 1)
        (fun _ ih cols d1 d2 =>
          (Nat.rec (motive := fun _ => Nat → Nat → Nat) (fun _ acc => acc)
            (fun _ ih2 avail acc =>
              cond (Nat.beq avail 0) acc
                ((fun rest => (fun bit => ih2 rest
                  (Nat.add acc (ih (Nat.lor cols bit) (Nat.shiftLeft (Nat.lor d1 bit) 1)
                    (Nat.shiftRight (Nat.lor d2 bit) 1)))) (Nat.sub avail rest))
                  (Nat.land avail (Nat.sub avail 1)))) N : Nat → Nat → Nat)
            (Nat.xor full (Nat.land (Nat.lor (Nat.lor cols d1) d2) full)) 0) rem :
              Nat → Nat → Nat → Nat)
        cols d1 d2 = fast_count N full rem cols d1 d2 := by
    intro rem
    induction rem with
    | zero => intro cols d1 d2; rfl
    | succ rem ih =>
      intro cols d1 d2
      rw [fast_count]
      have hg : (fun bit => fast_count N full rem (cols ||| bit) ((d1 ||| bit) <<< 1)
          ((d2 ||| bit) >>> 1)) = fun bit => _ :=
        funext fun bit => (ih (Nat.lor cols bit) (Nat.shiftLeft (Nat.lor d1 bit) 1)
          (Nat.shiftRight (Nat.lor d2 bit) 1)).symm
      rw [hg, ← hrows]
      rfl
  unfold fast_count_is
  rw [hcount]

theorem solutions_of_fast_count_is (N full v : Nat) (hfull : full = 2 ^ N - 1)
    (h : fast_count_is N full N 0 0 0 v) : (placements N).length = v := by
  rw [← solutions_eq_placements, ← fast_count_eq_solutions N N [] 0 0 0 masks_nil, ← hfull]
  exact (fast_count_is_iff N full N 0 0 0 v).1 h

theorem placements_8 : (placements 8).length = 92 := by
  apply solutions_of_fast_count_is 8 255 92 (by decide)
  unfold fast_count_is
  decide!

theorem placements_10 : (placements 10).length = 724 := by
  apply solutions_of_fast_count_is 10 1023 724 (by decide)
  unfold fast_count_is
  decide!

theorem sum_filter_map_ite (f : Nat → Nat) (P : Nat → Bool) (l : List Nat) :
    ((l.filter P).map f).sum = (l.map (fun i => if P i = true then f i else 0)).sum := by
  induction l with
  | nil => rfl
  | cons x xs ih =>
    by_cases hx : P x = true
    · rw [List.filter_cons_of_pos hx]
      simp only [List.map_cons, List.sum_cons, ih, hx, if_true]
    · rw [List.filter_cons_of_neg hx]
      simp only [List.map_cons, List.sum_cons, ih, hx, if_false, Nat.zero_add]
      simp [hx]

theorem sum_range_mirror (F : Nat → Nat) (N : Nat) :
    ((List.range N).map F).sum = ((List.range N).map (fun i => F (N - 1 - i))).sum := by
  have h := List.reverse_range' 0 N
  rw [← List.range_eq_range'] at h
  have h2 : (List.range N).map (fun i => F (N - 1 - i))
      = ((List.range N).reverse).map F := by
    rw [h, List.map_map]
    apply List.map_congr_left
    intro i _
    simp
  rw [h2, List.map_reverse, List.sum_reverse]

theorem getD_map_mirror (N : Nat) (p : List Nat) (c : Nat) (hc : c < p.length) :
    (p.map (fun x => N - 1 - x)).getD c 0 = N - 1 - p.getD c 0 := by
  simp [List.getD, List.getElem?_eq_getElem hc]

theorem getD_mem (p : List Nat) (c : Nat) (hc : c < p.length) : p.getD c 0 ∈ p := by
  rw [List.getD_eq_getElem _ _ hc]
  exact List.getElem_mem hc

theorem safe_mirror (N : Nat) (p : List Nat) (i : Nat) (hp : ∀ x ∈ p, x < N) (hi : i < N) :
    safe (p.map (fun x => N - 1 - x)) (N - 1 - i) = safe p i := by
  rw [Bool.eq_iff_iff, safe_iff, safe_iff, List.length_map]
  constructor
  · intro h c hc
    have := h c hc
    rw [getD_map_mirror N p c hc] at this
    have hb := hp _ (getD_mem p c hc)
    omega
  · intro h c hc
    have := h c hc
    rw [getD_map_mirror N p c hc]
    have hb := hp _ (getD_mem p c hc)
    omega

theorem solutions_mirror (N : Nat) : ∀ (rem : Nat) (p : List Nat), (∀ x ∈ p, x < N) →
    solutions N rem (p.map (fun x => N - 1 - x)) = solutions N rem p := by
  intro rem
  induction rem with
  | zero => intro p _; rfl
  | succ rem ih =>
    intro p hp
    rw [solutions, solutions, sum_filter_map_ite, sum_filter_map_ite, sum_range_mirror]
    congr 1
    apply List.map_congr_left
    intro i hi
    have hi2 := List.mem_range.1 hi
    rw [safe_mirror N p i hp hi2]
    have happ : p.map (fun x => N - 1 - x) ++ [N - 1 - i]
        = (p ++ [i]).map (fun x => N - 1 - x) := by simp
    rw [happ, ih (p ++ [i]) (by
      intro x hx
      rcases List.mem_append.1 hx with h | h
      · exact hp x h
      · rw [List.mem_singleton.1 h]; exact hi2)]

theorem solutions_row_mirror (N rem i k v : Nat) (hk : k + i + 1 = N)
    (h : solutions N rem [i] = v) : solutions N rem [k] = v := by
  have hm := solutions_mirror N rem [i] (by
    intro x hx
    rw [List.mem_singleton.1 hx]; omega)
  have hki : N - 1 - i = k := by omega
  simp only [List.map_cons, List.map_nil, hki] at hm
  rw [hm, h]

theorem solutions_row (N rem i v : Nat)
    (h : fast_count_is N (2 ^ N - 1) rem (2 ^ i) (2 ^ i <<< 1) (2 ^ i >>> 1) v) :
    solutions N rem [i] = v := by
  have hm := masks_append [] 0 0 0 i masks_nil
  simp only [Nat.zero_or, List.nil_append] at hm
  rw [← fast_count_eq_solutions N rem [i] _ _ _ hm]
  exact (fast_count_is_iff N _ rem _ _ _ v).1 h

theorem placements_of_rows (N rem : Nat) (v : Nat → Nat) (hN : N = rem + 1)
    (h : ∀ i < N, solutions N rem [i] = v i) :
    (placements N).length = ((List.range N).map v).sum := by
  rw [← solutions_eq_placements]
  have hfilter : (List.range N).filter (fun i => safe [] i) = List.range N :=
    List.filter_eq_self.2 (fun i _ => by simp [safe])
  have hsol : solutions N (rem + 1) []
      = (((List.range N).filter (fun i => safe [] i)).map
          (fun i => solutions N rem ([] ++ [i]))).sum := by
    rw [solutions]
  rw [hN] at hsol
  rw [hN, hsol, ← hN, hfilter]
  congr 1
  apply List.map_congr_left
  intro i hi
  exact h i (List.mem_range.1 hi)

theorem solutions_12_row_0 :
    fast_count_is 12 (2 ^ 12 - 1) 11 (2 ^ 0) (2 ^ 0 <<< 1) (2 ^ 0 >>> 1) 500 := by
  unfold fast_count_is
  decide!

theorem solutions_12_row_1 :
    fast_count_is 12 (2 ^ 12 - 1) 11 (2 ^ 1) (2 ^ 1 <<< 1) (2 ^ 1 >>> 1) 806 := by
  unfold fast_count_is
  decide!

theorem solutions_12_row_2 :
    fast_count_is 12 (2 ^ 12 - 1) 11 (2 ^ 2) (2 ^ 2 <<< 1) (2 ^ 2 >>> 1) 1165 := by
  unfold fast_count_is
  decide!

theorem solutions_12_row_3 :
    fast_count_is 12 (2 ^ 12 - 1) 11 (2 ^ 3) (2 ^ 3 <<< 1) (2 ^ 3 >>> 1) 1359 := by
  unfold fast_count_is
  decide!

theorem solutions_12_row_4 :
    fast_count_is 12 (2 ^ 12 - 1) 11 (2 ^ 4) (2 ^ 4 <<< 1) (2 ^ 4 >>> 1) 1631 := by
  unfold fast_count_is
  decide!

theorem solutions_12_row_5 :
    fast_count_is 12 (2 ^ 12 - 1) 11 (2 ^ 5) (2 ^ 5 <<< 1) (2 ^ 5 >>> 1) 1639 := by
  unfold fast_count_is
  decide!

theorem placements_12 : (placements 12).length = 14200 := by
  refine (placements_of_rows 12 11
    (fun i => [500, 806, 1165, 1359, 1631, 1639, 1639, 1631, 1359, 1165, 806, 500].getD i 0)
    rfl ?_).trans (by decide)
  intro i hi
  interval_cases i
  · exact solutions_row 12 11 0 500 solutions_12_row_0
  · exact solutions_row 12 11 1 806 solutions_12_row_1
  · exact solutions_row 12 11 2 1165 solutions_12_row_2
  · exact solutions_row 12 11 3 1359 solutions_12_row_3
  · exact solutions_row 12 11 4 1631 solutions_12_row_4
  · exact solutions_row 12 11 5 1639 solutions_12_row_5
  · exact solutions_row_mirror 12 11 5 6 1639 (by decide)
      (solutions_row 12 11 5 1639 solutions_12_row_5)
  · exact solutions_row_mirror 12 11 4 7 1631 (by decide)
      (solutions_row 12 11 4 1631 solutions_12_row_4)
  · exact solutions_row_mirror 12 11 3 8 1359 (by decide)
      (solutions_row 12 11 3 1359 solutions_12_row_3)
  · exact solutions_row_mirror 12 11 2 9 1165 (by decide)
      (solutions_row 12 11 2 1165 solutions_12_row_2)
  · exact solutions_row_mirror 12 11 1 10 806 (by decide)
      (solutions_row 12 11 1 806 solutions_12_row_1)
  · exact solutions_row_mirror 12 11 0 11 500 (by decide)
      (solutions_row 12 11 0 500 solutions_12_row_0)

theorem nqueens_eq_placements (char_signed : Bool) (N : Nat) (indeterminate : Int)
    (fuel : Nat) (a : Nat → Int) (hN : (N : Int) ≤ CHAR_MAX char_signed + 1)
    (hfit : ((placements N).length : Int) ≤ INT_MAX) (hfuel : N < fuel) :
    nqueens char_signed N indeterminate fuel 0 a = some ((placements N).length : Int) := by
  have h := nqueens_eq_solutions char_signed N hN indeterminate fuel 0 a []
    (by intro c hc; simp at hc) rfl (Nat.zero_le _) (by omega)
    (by intro c2 h2; simp at h2)
  rw [Nat.sub_zero, solutions_eq_placements] at h
  exact h hfit

theorem char_max_ge (char_signed : Bool) : (127 : Int) ≤ CHAR_MAX char_signed := by
  cases char_signed <;> decide

/-- C14 (as written) fails beyond the range of `char`: in column `j = 1`
after a queen in row 127, the store `buf[128][1] = 128` leaves -128 where
`char` is signed, so `buf[128]` is not `a[0..1)` extended with row 128, and
`queens_ok(2, buf[128])` holds although the queens in rows 127 and 128 of
adjacent columns attack each other; where `char` is unsigned the same
happens with rows 255 and 256. -/
theorem nqueens_row_beyond_char :
    buf true 0 1 (fun _ => 127) 128 1 = -128 ∧
      queens_ok 2 (buf true 0 1 (fun _ => 127) 128) = true ∧ ¬ non_attacking [127, 128] ∧
      buf false 0 1 (fun _ => 255) 256 1 = 0 ∧
      queens_ok 2 (buf false 0 1 (fun _ => 255) 256) = true ∧ ¬ non_attacking [255, 256] := by
  refine ⟨by decide, by decide, by decide, by decide, by decide, by decide⟩

/-- C14 (amended): for every board size `N` of at most `CHAR_MAX + 1` rows
whose number of complete non-attacking placements fits in `int`,
`nqueens<N>(0, a)` returns that number, whatever the board `a` holds: at
column `j == N` it returns 1, and otherwise the sum in `int` of
`nqueens(j + 1, buf[i])` over exactly the rows `i` in `[0, N)` for which
`queens_ok(j + 1, buf[i])` holds; the count is 92 for `N = 8`, 724 for
`N = 10` and 14200 for `N = 12`. -/
theorem nqueens_counts_placements (char_signed : Bool) (N : Nat) (indeterminate : Int)
    (fuel : Nat) (a : Nat → Int) (hN : (N : Int) ≤ CHAR_MAX char_signed + 1)
    (hfit : ((placements N).length : Int) ≤ INT_MAX) (hfuel : N < fuel) :
    nqueens char_signed N indeterminate fuel 0 a = some ((placements N).length : Int) ∧
      (∀ b : Nat → Int, nqueens char_signed N indeterminate fuel N b = some 1) ∧
      (∀ (j : Nat) (b : Nat → Int), N ≠ j →
        nqueens char_signed N indeterminate (fuel + 1) j b
          = (all_some (((List.range N).filter
                (fun i => queens_ok (j + 1) (buf char_signed indeterminate j b i))).map
              (fun i => nqueens char_signed N indeterminate fuel (j + 1)
                (buf char_signed indeterminate j b i)))).bind sum_parts) ∧
      (∀ f : Nat, 8 < f → nqueens char_signed 8 indeterminate f 0 a = some 92) ∧
      (∀ f : Nat, 10 < f → nqueens char_signed 10 indeterminate f 0 a = some 724) ∧
      (∀ f : Nat, 12 < f → nqueens char_signed 12 indeterminate f 0 a = some 14200) := by
  have hc := char_max_ge char_signed
  refine ⟨nqueens_eq_placements char_signed N indeterminate fuel a hN hfit hfuel, ?_, ?_,
    ?_, ?_, ?_⟩
  · intro b
    obtain ⟨k, rfl⟩ : ∃ k, fuel = k + 1 := ⟨fuel - 1, by omega⟩
    rw [nqueens, if_pos rfl]
  · intro j b hj
    rw [nqueens, if_neg hj]
  · intro f hf
    have h := nqueens_eq_placements char_signed 8 indeterminate f a (by push_cast; omega)
      (by rw [placements_8]; decide) hf
    rw [placements_8] at h
    exact h
  · intro f hf
    have h := nqueens_eq_placements char_signed 10 indeterminate f a (by push_cast; omega)
      (by rw [placements_10]; decide) hf
    rw [placements_10] at h
    exact h
  · intro f hf
    have h := nqueens_eq_placements char_signed 12 indeterminate f a (by push_cast; omega)
      (by rw [placements_12]; decide) hf
    rw [placements_12] at h
    exact h

theorem nqueens_counts_placements_witness :
    ((8 : Nat) : Int) ≤ CHAR_MAX true + 1 ∧ (((placements 8).length : Nat) : Int) ≤ INT_MAX ∧
      8 < 9 ∧ nqueens true 8 0 9 0 (fun _ => 0) = some 92 :=
  have h1 : ((8 : Nat) : Int) ≤ CHAR_MAX true + 1 := by decide
  have h2 : (((placements 8).length : Nat) : Int) ≤ INT_MAX := by rw [placements_8]; decide
  ⟨h1, h2, by decide,
    (nqueens_counts_placements true 8 0 9 (fun _ => 0) h1 h2 (by decide)).2.2.2.1 9 (by decide)⟩

end lf
